import Mathlib

set_option maxHeartbeats 1000000

/-!
Verification of the kvdb Bitcask storage engine (a log-structured key-value
store). The definitions below are a shallow embedding of the Go source:

* `logfile.go` — `LogEntry`, `LogFile`, `LogFile.write` (`Write`),
  `LogFile.read` (`Read`), `readEntry` (`ReadEntry`), flush and sync;
* `bitcask.go` — `KeyDirEntry`, `Bitcask`, `rebuildKeyDir`, `loadFiles` and
  `Open` (as `openDisk`), `createActiveFile` and `rotateActiveFile`,
  `Bitcask.keys` (`Keys`), `Bitcask.closeDisk` (the on-disk contents after
  `Close`);
* `operations.go` — `Bitcask.putF` (`Put`), `Bitcask.get` (`Get`),
  `Bitcask.deleteF` (`Delete`).

Modelling conventions: a byte is a natural number below 256 and a file is a
list of bytes; machine integers are naturals with explicit `% 2^32` where the
Go code converts to `uint32`; Go strings are byte strings, so keys are byte
lists; `time.Now()` is an input, threaded as the `ts` argument; the bufio
writer is the `buffer` field of `LogFile`, kept separate from the bytes
`fileData` already in the OS file, because `ReadEntry` and `ReadAt` only see
the latter; fallible operations return `Except` or pair the new state with an
optional error, and the elementary I/O steps that can fail in Go for
environmental reasons (sync during rotation, append, sync, flush) consult an
injected `FailurePlan`, with `noFail` giving the failure-free executions.
-/

/-- Bytes of a file, each below 256. -/
abbrev Bytes := List Nat

/-- Keys are Go strings, i.e. byte strings. -/
abbrev Key := List Nat

/-- Source: logfile.go `LogEntry`, one record of a log file. -/
structure LogEntry where
  timestamp : Nat
  keySize : Nat
  valueSize : Nat
  key : Bytes
  value : Bytes
deriving DecidableEq

/-- Source: bitcask.go `KeyDirEntry`, one entry of the in-memory key directory. -/
structure KeyDirEntry where
  fileID : Nat
  valueSize : Nat
  valuePos : Nat
  timestamp : Nat
deriving DecidableEq

/-- Modelled from the spec: the configuration surface of section 6
(`max_segment_size` and `sync_on_write`); the `internal/config` package is not
under src. The compaction-interval setting is omitted because it has no
observable effect. -/
structure Config where
  maxFileSize : Nat
  syncWrites : Bool
deriving DecidableEq

/-- Source: logfile.go `LogFile`. `fileData` are the bytes in the OS file,
`buffer` the bytes pending in the bufio writer, `size` the tracked size field. -/
structure LogFile where
  id : Nat
  fileData : Bytes
  buffer : Bytes
  size : Nat
  readOnly : Bool
deriving DecidableEq

/-- Little-endian four-byte encoding of a 32-bit integer
(`binary.Write` with `binary.LittleEndian` on `uint32`). -/
def u32le (n : Nat) : Bytes :=
  [n % 256, n / 256 % 256, n / 65536 % 256, n / 16777216 % 256]

/-- Little-endian value of a list of bytes (`binary.Read` with
`binary.LittleEndian`). -/
def leVal : Bytes → Nat
  | [] => 0
  | b :: rest => b % 256 + 256 * leVal rest

/-- Byte layout produced by `LogFile.Write`: fixed 12-byte header
(timestamp, key size, value size) followed by key bytes and value bytes. -/
def encodeEntry (e : LogEntry) : Bytes :=
  u32le e.timestamp ++ u32le e.keySize ++ u32le e.valueSize ++ e.key ++ e.value

/-- The `n` bytes of `c` starting at `pos`. -/
def bytesAt (c : Bytes) (pos n : Nat) : Bytes := (c.drop pos).take n

/-- `io.ReadFull` semantics at an absolute position: reading zero bytes always
succeeds; zero available bytes yield `io.EOF`; a partial read yields
`io.ErrUnexpectedEOF`. -/
def readFull (c : Bytes) (pos n : Nat) : Except String Bytes :=
  if n = 0 then .ok []
  else if c.length ≤ pos then .error "EOF"
  else if c.length < pos + n then .error "unexpected EOF"
  else .ok (bytesAt c pos n)

/-- Source: logfile.go `ReadEntry`: sequentially decode one record starting at
`pos`, returning the record and the next offset `pos + 12 + keySize + valueSize`. -/
def readEntry (c : Bytes) (pos : Nat) : Except String (LogEntry × Nat) :=
  match readFull c pos 4 with
  | .error e => .error e
  | .ok tsb =>
    match readFull c (pos + 4) 4 with
    | .error e => .error e
    | .ok ksb =>
      match readFull c (pos + 8) 4 with
      | .error e => .error e
      | .ok vsb =>
        match readFull c (pos + 12) (leVal ksb) with
        | .error e => .error e
        | .ok key =>
          match readFull c (pos + 12 + leVal ksb) (leVal vsb) with
          | .error e => .error e
          | .ok value =>
            .ok (⟨leVal tsb, leVal ksb, leVal vsb, key, value⟩,
                 pos + 12 + leVal ksb + leVal vsb)

/-- Source: logfile.go `Write`: append the encoded record to the bufio buffer,
advance the tracked size by `4 + 4 + 4 + len(key) + len(value)` and return the
position where the value starts, `size + 12 + len(key)`. -/
def LogFile.write (lf : LogFile) (e : LogEntry) : Except String (Nat × LogFile) :=
  if lf.readOnly then .error "cannot write to read-only file"
  else
    .ok (lf.size + 12 + e.key.length,
      { lf with buffer := lf.buffer ++ encodeEntry e,
                size := lf.size + (12 + e.key.length + e.value.length) })

/-- Source: logfile.go `Flush`: move buffered bytes into the file. -/
def LogFile.flush (lf : LogFile) : LogFile :=
  if lf.readOnly then lf
  else { lf with fileData := lf.fileData ++ lf.buffer, buffer := [] }

/-- Source: logfile.go `Sync`: flush, then fsync (a no-op in the model); no-op
on read-only files. -/
def LogFile.sync (lf : LogFile) : LogFile :=
  if lf.readOnly then lf else lf.flush

/-- Source: logfile.go `Read`: random-access read of exactly `valueSize` bytes
at `valuePos`; `ReadAt` on an empty slice succeeds, and a short read is an
error. -/
def LogFile.read (lf : LogFile) (valuePos valueSize : Nat) : Except String Bytes :=
  if valueSize = 0 then .ok []
  else if valuePos + valueSize ≤ lf.fileData.length then .ok (bytesAt lf.fileData valuePos valueSize)
  else .error "failed to read value"

/-- The in-memory key directory, a Go `map[string]*KeyDirEntry` modelled as an
association list. -/
abbrev KeyDir := List (Key × KeyDirEntry)

def kdLookup : KeyDir → Key → Option KeyDirEntry
  | [], _ => none
  | (k', e) :: rest, k => if k' = k then some e else kdLookup rest k

def kdRemove : KeyDir → Key → KeyDir
  | [], _ => []
  | (k', e) :: rest, k => if k' = k then kdRemove rest k else (k', e) :: kdRemove rest k

def kdInsert (d : KeyDir) (k : Key) (e : KeyDirEntry) : KeyDir :=
  kdRemove d k ++ [(k, e)]

/-- Source: bitcask.go `Bitcask`. -/
structure Bitcask where
  keyDir : KeyDir
  activeFile : LogFile
  readOnlyFiles : List LogFile
  config : Config
deriving DecidableEq

def lfLookup : List LogFile → Nat → Option LogFile
  | [], _ => none
  | f :: rest, i => if f.id = i then some f else lfLookup rest i

/-- All open segment files: the sealed ones and then the active one. -/
def allFiles (bc : Bitcask) : List LogFile := bc.readOnlyFiles ++ [bc.activeFile]

/-- Source: bitcask.go `createActiveFile`: the maximum id among the read-only
files, zero when there are none. -/
def maxId (l : List LogFile) : Nat := l.foldl (fun m f => if f.id > m then f.id else m) 0

/-- A freshly created writable log file (`NewLogFile` on a file that does not
exist yet: empty, size zero). -/
def newLogFile (id : Nat) : LogFile := ⟨id, [], [], 0, false⟩

/-- Source: bitcask.go `rotateActiveFile` followed by `createActiveFile`: sync
the active file, move it into the read-only set, then create a new active file
with id one more than the maximum read-only id. -/
def Bitcask.rotateActiveFile (bc : Bitcask) : Bitcask :=
  let sealed := bc.activeFile.sync
  let ro := bc.readOnlyFiles ++ [sealed]
  { bc with readOnlyFiles := ro, activeFile := newLogFile (maxId ro + 1) }

/-- Injected outcomes for the elementary I/O steps of `Put` and `Delete` that
can fail in Go for environmental reasons. -/
structure FailurePlan where
  rotateFail : Bool
  writeFail : Bool
  syncFail : Bool
  flushFail : Bool
deriving DecidableEq

def noFail : FailurePlan := ⟨false, false, false, false⟩

/-- The record built by `Put`: `uint32` conversions truncate modulo `2^32`. -/
def mkEntry (ts : Nat) (k : Key) (v : Bytes) : LogEntry :=
  ⟨ts % 4294967296, k.length % 4294967296, v.length % 4294967296, k, v⟩

/-- Source: operations.go `Put`: rotate if the active size reached the
threshold, append the record, sync or flush according to the configuration,
then update the key directory. Each fallible step consults the `FailurePlan`;
an error leaves the state as mutated so far, with the key directory untouched. -/
def Bitcask.putF (bc : Bitcask) (fp : FailurePlan) (ts : Nat) (k : Key) (v : Bytes) :
    Bitcask × Option String :=
  if bc.activeFile.size ≥ bc.config.maxFileSize ∧ fp.rotateFail = true then
    (bc, some "failed to rotate active file")
  else
    let bc1 := if bc.activeFile.size ≥ bc.config.maxFileSize then bc.rotateActiveFile else bc
    let entry := mkEntry ts k v
    if fp.writeFail then (bc1, some "failed to write entry")
    else
      match bc1.activeFile.write entry with
      | .error _ => (bc1, some "failed to write entry")
      | .ok (valuePos, af) =>
        let bc2 := { bc1 with activeFile := af }
        if bc2.config.syncWrites = true ∧ fp.syncFail = true then
          (bc2, some "failed to sync")
        else if bc2.config.syncWrites = false ∧ fp.flushFail = true then
          (bc2, some "failed to flush")
        else
          let bc3 := { bc2 with
            activeFile := if bc2.config.syncWrites then af.sync else af.flush }
          ({ bc3 with keyDir := (kdInsert bc3.keyDir k
              ⟨bc3.activeFile.id, entry.valueSize, valuePos, entry.timestamp⟩) }, none)

/-- Source: operations.go `Delete`: report not-found when the key is absent;
otherwise append a tombstone (value size zero), sync or flush, then remove the
key from the directory. -/
def Bitcask.deleteF (bc : Bitcask) (fp : FailurePlan) (ts : Nat) (k : Key) :
    Bitcask × Option String :=
  match kdLookup bc.keyDir k with
  | none => (bc, some "key not found")
  | some _ =>
    let entry : LogEntry := ⟨ts % 4294967296, k.length % 4294967296, 0, k, []⟩
    if fp.writeFail then (bc, some "failed to write tombstone")
    else
      match bc.activeFile.write entry with
      | .error _ => (bc, some "failed to write tombstone")
      | .ok (_, af) =>
        let bc2 := { bc with activeFile := af }
        if bc2.config.syncWrites = true ∧ fp.syncFail = true then
          (bc2, some "failed to sync")
        else if bc2.config.syncWrites = false ∧ fp.flushFail = true then
          (bc2, some "failed to flush")
        else
          let bc3 := { bc2 with
            activeFile := if bc2.config.syncWrites then af.sync else af.flush }
          ({ bc3 with keyDir := kdRemove bc3.keyDir k }, none)

/-- `Put` in a failure-free environment. -/
def Bitcask.put (bc : Bitcask) (ts : Nat) (k : Key) (v : Bytes) : Bitcask × Option String :=
  bc.putF noFail ts k v

/-- `Delete` in a failure-free environment. -/
def Bitcask.delete (bc : Bitcask) (ts : Nat) (k : Key) : Bitcask × Option String :=
  bc.deleteF noFail ts k

/-- Resolution of a key-directory entry to bytes: the active file when the ids
match, otherwise the read-only file of that id (source: operations.go `Get`,
after the directory lookup). -/
def readLoc (bc : Bitcask) (e : KeyDirEntry) : Except String Bytes :=
  match (if e.fileID = bc.activeFile.id then some bc.activeFile
         else lfLookup bc.readOnlyFiles e.fileID) with
  | none => .error "log file not found"
  | some lf => lf.read e.valuePos e.valueSize

/-- Source: operations.go `Get`. -/
def Bitcask.get (bc : Bitcask) (k : Key) : Except String Bytes :=
  match kdLookup bc.keyDir k with
  | none => .error "key not found"
  | some e => readLoc bc e

/-- Source: bitcask.go `Keys`. -/
def Bitcask.keys (bc : Bitcask) : List Key := bc.keyDir.map (·.1)

/-- Source: bitcask.go `rebuildKeyDir`, the replay loop: decode records from
`pos`, apply tombstones as removals and other records as directory inserts at
`valuePos = pos + 12 + keySize`, stop on the error string `"EOF"`, propagate
any other error. The loop advances at least 12 bytes per iteration, so fuel
`c.length + 1` never runs out; the fuel parameter only makes the recursion
structural. -/
def replayFuel (fid : Nat) (c : Bytes) : Nat → Nat → KeyDir → Except String KeyDir
  | 0, _, _ => .error "replay fuel exhausted"
  | fuel + 1, pos, d =>
    match readEntry c pos with
    | .error e => if e = "EOF" then .ok d else .error e
    | .ok (entry, nextPos) =>
      replayFuel fid c fuel nextPos
        (if entry.valueSize = 0 then kdRemove d entry.key
         else kdInsert d entry.key ⟨fid, entry.valueSize, pos + 12 + entry.keySize, entry.timestamp⟩)

/-- Source: bitcask.go `rebuildKeyDir` applied to one log file from offset 0. -/
def rebuildKeyDir (d : KeyDir) (lf : LogFile) : Except String KeyDir :=
  replayFuel lf.id lf.fileData (lf.fileData.length + 1) 0 d

/-- The on-disk contents of a database directory: segment file ids with their
bytes (the zero-padded file naming is a bijection between ids and names). -/
abbrev Disk := List (Nat × Bytes)

def diskLookup : Disk → Nat → Option Bytes
  | [], _ => none
  | (i, c) :: rest, j => if i = j then some c else diskLookup rest j

def insertSorted (n : Nat) : List Nat → List Nat
  | [] => [n]
  | m :: rest => if n ≤ m then n :: m :: rest else m :: insertSorted n rest

/-- Ascending sort of the parsed segment ids (source: bitcask.go `loadFiles`,
`sort.Slice`). -/
def sortIds (l : List Nat) : List Nat := l.foldr insertSorted []

/-- A log file opened read-only (`NewLogFile` with `readOnly = true`: size from
stat, no writer). -/
def roFile (id : Nat) (c : Bytes) : LogFile := ⟨id, c, [], c.length, true⟩

/-- Source: bitcask.go `loadFiles`, the loop over sorted ids: open each segment
read-only and replay it into the shared key directory. -/
def loadLoop (disk : Disk) : List Nat → List LogFile → KeyDir → Except String (List LogFile × KeyDir)
  | [], ro, kd => .ok (ro, kd)
  | i :: rest, ro, kd =>
    match diskLookup disk i with
    | none => .error "failed to open log file"
    | some c =>
      match rebuildKeyDir kd (roFile i c) with
      | .error e => .error e
      | .ok kd' => loadLoop disk rest (ro ++ [roFile i c]) kd'

/-- Source: bitcask.go `Open`: load and replay the existing segments in
ascending id order, then create a fresh active file with id one more than the
maximum loaded id. -/
def openDisk (cfg : Config) (disk : Disk) : Except String Bitcask :=
  match loadLoop disk (sortIds (disk.map (·.1))) [] [] with
  | .error e => .error e
  | .ok (ro, kd) => .ok ⟨kd, newLogFile (maxId ro + 1), ro, cfg⟩

/-- The directory contents after a graceful `Close`: every file holds its data
plus any still-buffered bytes (Close flushes writers). -/
def Bitcask.closeDisk (bc : Bitcask) : Disk :=
  bc.readOnlyFiles.map (fun f => (f.id, f.fileData ++ f.buffer)) ++
    [(bc.activeFile.id, bc.activeFile.fileData ++ bc.activeFile.buffer)]

/-- The state `Open` produces on an empty directory. -/
def freshBitcask (cfg : Config) : Bitcask := ⟨[], newLogFile 1, [], cfg⟩

/-- One engine operation with its environmental timestamp. -/
inductive Op where
  | put (ts : Nat) (key : Key) (value : Bytes)
  | del (ts : Nat) (key : Key)
deriving DecidableEq

def stepOp (bc : Bitcask) : Op → Bitcask
  | .put ts k v => (bc.put ts k v).1
  | .del ts k => (bc.delete ts k).1

/-- Run a sequence of engine operations (keeping the state an operation leaves
behind whether or not it reported an error). -/
def run (bc : Bitcask) (ops : List Op) : Bitcask := ops.foldl stepOp bc

/-- Specification-level effect of one operation on the abstract map of live
keys: a put binds the key, a delete unbinds it. -/
def applySpecOp (m : Key → Option Bytes) : Op → Key → Option Bytes
  | .put _ k v, k' => if k' = k then some v else m k'
  | .del _ k, k' => if k' = k then none else m k'

/-- The abstract map of live keys after a sequence of operations: each key maps
to its most recently put value, unless deleted afterwards. -/
def liveSpec (ops : List Op) : Key → Option Bytes :=
  ops.foldl applySpecOp (fun _ => none)

/-- Keys and values short enough that the `uint32` length fields of the on-disk
format are exact. -/
def opBounded : Op → Bool
  | .put _ k v => decide (k.length < 4294967296) && decide (v.length < 4294967296)
  | .del _ k => decide (k.length < 4294967296)

def Bounded (ops : List Op) : Prop := ∀ op ∈ ops, opBounded op = true

/-- No put stores an empty value (an empty value is the tombstone encoding). -/
def noEmptyPutOp : Op → Bool
  | .put _ _ v => decide (v ≠ [])
  | .del _ _ => true

def NoEmptyPut (ops : List Op) : Prop := ∀ op ∈ ops, noEmptyPutOp op = true

instance (ops : List Op) : Decidable (Bounded ops) :=
  List.decidableBAll _ ops

instance (ops : List Op) : Decidable (NoEmptyPut ops) :=
  List.decidableBAll _ ops

instance {ε α : Type} [DecidableEq ε] [DecidableEq α] : DecidableEq (Except ε α) := fun a b =>
  match a, b with
  | .error e₁, .error e₂ =>
    if h : e₁ = e₂ then isTrue (by rw [h])
    else isFalse (by intro hh; injection hh with h2; exact h h2)
  | .error _, .ok _ => isFalse (by intro hh; exact Except.noConfusion hh)
  | .ok _, .error _ => isFalse (by intro hh; exact Except.noConfusion hh)
  | .ok a₁, .ok a₂ =>
    if h : a₁ = a₂ then isTrue (by rw [h])
    else isFalse (by intro hh; injection hh with h2; exact h h2)

def strictSorted : List Nat → Bool
  | [] => true
  | [_] => true
  | a :: b :: rest => decide (a < b) && strictSorted (b :: rest)

/-- Structural invariant of reachable engine states: segment ids strictly
ascending with the active file last, all bufio buffers flushed between
operations, tracked sizes accurate, the active file writable with id at least
one. -/
def IdInv (bc : Bitcask) : Prop :=
  strictSorted ((allFiles bc).map (·.id)) = true ∧
  (∀ f ∈ allFiles bc, f.buffer = []) ∧
  (∀ f ∈ allFiles bc, f.size = f.fileData.length) ∧
  bc.activeFile.readOnly = false ∧
  1 ≤ bc.activeFile.id

/-- Well-formed record: size fields exact and all header fields below `2^32`. -/
def WFEntry (e : LogEntry) : Bool :=
  decide (e.keySize = e.key.length) && decide (e.valueSize = e.value.length) &&
  decide (e.timestamp < 4294967296) && decide (e.keySize < 4294967296) &&
  decide (e.valueSize < 4294967296)

def encodeList : List LogEntry → Bytes
  | [] => []
  | e :: rest => encodeEntry e ++ encodeList rest

/-- A log file whose bytes are the encoding of a list of well-formed records. -/
def FileRec (f : LogFile) (recs : List LogEntry) : Prop :=
  f.fileData = encodeList recs ∧ ∀ e ∈ recs, WFEntry e = true

/-- Effect of replaying one record located at `pos` of file `fid` on the key
directory (the body of the `rebuildKeyDir` loop). -/
def applyRec (fid pos : Nat) (d : KeyDir) (e : LogEntry) : KeyDir :=
  if e.valueSize = 0 then kdRemove d e.key
  else kdInsert d e.key ⟨fid, e.valueSize, pos + 12 + e.keySize, e.timestamp⟩

/-- Effect of replaying a list of records laid out consecutively from `pos`. -/
def applyRecs (fid : Nat) : Nat → KeyDir → List LogEntry → KeyDir
  | _, d, [] => d
  | pos, d, e :: rest => applyRecs fid (pos + (encodeEntry e).length) (applyRec fid pos d e) rest

/-- Replay a whole directory of segment files in the given order. -/
def replayDisk : Disk → KeyDir → Except String KeyDir
  | [], d => .ok d
  | (fid, c) :: rest, d =>
    match replayFuel fid c (c.length + 1) 0 d with
    | .error e => .error e
    | .ok d' => replayDisk rest d'

/-- Record-level replay of a directory of segment files. -/
def recsDisk : List (Nat × List LogEntry) → KeyDir → KeyDir
  | [], d => d
  | (fid, recs) :: rest, d => recsDisk rest (applyRecs fid 0 d recs)

/-- A disk file together with its record list. -/
def DiskRec (p : Nat × Bytes) (q : Nat × List LogEntry) : Prop :=
  p.1 = q.1 ∧ p.2 = encodeList q.2 ∧ ∀ e ∈ q.2, WFEntry e = true

/-- The state after appending record `e` to the active file and flushing. -/
def appendActive (bc : Bitcask) (e : LogEntry) : Bitcask :=
  { bc with activeFile := ⟨bc.activeFile.id,
      bc.activeFile.fileData ++ (bc.activeFile.buffer ++ encodeEntry e), [],
      bc.activeFile.size + (12 + e.key.length + e.value.length), bc.activeFile.readOnly⟩ }

/-- The full invariant of states reachable by a bounded operation sequence
from a fresh open. `ops` is the operation history. -/
structure EngInv (ops : List Op) (bc : Bitcask) : Prop where
  idi : IdInv bc
  streams : ∀ f ∈ allFiles bc, ∃ recs, FileRec f recs
  nodup : (bc.keyDir.map (·.1)).Nodup
  readOk : ∀ k e, kdLookup bc.keyDir k = some e →
    ∃ v, liveSpec ops k = some v ∧ readLoc bc e = .ok v
  liveNone : ∀ k, kdLookup bc.keyDir k = none → liveSpec ops k = none
  replayEq : NoEmptyPut ops → ∃ d, replayDisk bc.closeDisk [] = .ok d ∧
    ∀ k, kdLookup d k = kdLookup bc.keyDir k

/-! ### Key directory lemmas -/

theorem kdLookup_append (d₁ d₂ : KeyDir) (k : Key) :
    kdLookup (d₁ ++ d₂) k =
      match kdLookup d₁ k with
      | some e => some e
      | none => kdLookup d₂ k := by
  induction d₁ with
  | nil => simp [kdLookup]
  | cons p rest ih =>
    obtain ⟨k₀, e₀⟩ := p
    by_cases h : k₀ = k <;> simp [kdLookup, h, ih]

theorem kdLookup_remove (d : KeyDir) (k k' : Key) :
    kdLookup (kdRemove d k) k' = if k' = k then none else kdLookup d k' := by
  induction d with
  | nil => simp [kdRemove, kdLookup]
  | cons p rest ih =>
    obtain ⟨k₀, e₀⟩ := p
    by_cases h0 : k₀ = k
    · rw [kdRemove, if_pos h0, ih]
      by_cases h1 : k' = k
      · simp [h1]
      · have h2 : ¬ k₀ = k' := fun hh => h1 (hh.symm.trans h0)
        simp [kdLookup, h1, h2]
    · rw [kdRemove, if_neg h0]
      by_cases h1 : k₀ = k'
      · have h2 : ¬ k' = k := fun hh => h0 (h1.trans hh)
        simp [kdLookup, h1, h2]
      · simp [kdLookup, h1, ih]

theorem kdLookup_insert (d : KeyDir) (k : Key) (e : KeyDirEntry) (k' : Key) :
    kdLookup (kdInsert d k e) k' = if k' = k then some e else kdLookup d k' := by
  rw [kdInsert, kdLookup_append, kdLookup_remove]
  by_cases h : k' = k
  · simp [h, kdLookup]
  · have h2 : ¬ k = k' := fun hh => h hh.symm
    simp only [if_neg h, kdLookup, if_neg h2]
    cases kdLookup d k' <;> rfl

theorem kdLookup_eq_none_iff (d : KeyDir) (k : Key) :
    kdLookup d k = none ↔ k ∉ d.map (·.1) := by
  induction d with
  | nil => simp [kdLookup]
  | cons p rest ih =>
    obtain ⟨k₀, e₀⟩ := p
    by_cases h : k₀ = k
    · simp [kdLookup, h]
    · have h2 : ¬ k = k₀ := fun hh => h hh.symm
      simp [kdLookup, h, h2, ih]

theorem kdRemove_keys_subset (d : KeyDir) (k : Key) (k' : Key)
    (hmem : k' ∈ (kdRemove d k).map (·.1)) : k' ∈ d.map (·.1) := by
  induction d with
  | nil => simpa [kdRemove] using hmem
  | cons p rest ih =>
    obtain ⟨k₀, e₀⟩ := p
    by_cases h : k₀ = k
    · rw [kdRemove, if_pos h] at hmem
      exact List.mem_cons_of_mem k₀ (ih hmem)
    · rw [kdRemove, if_neg h] at hmem
      rcases List.mem_cons.mp hmem with h1 | h1
      · exact List.mem_cons.mpr (Or.inl h1)
      · exact List.mem_cons_of_mem k₀ (ih h1)

theorem kdRemove_not_mem (d : KeyDir) (k : Key) : k ∉ (kdRemove d k).map (·.1) := by
  induction d with
  | nil => simp [kdRemove]
  | cons p rest ih =>
    obtain ⟨k₀, e₀⟩ := p
    by_cases h : k₀ = k
    · simpa [kdRemove, h] using ih
    · rw [kdRemove, if_neg h]
      intro hmem
      rcases List.mem_cons.mp hmem with h1 | h1
      · exact h h1.symm
      · exact ih h1

theorem kdRemove_nodup (d : KeyDir) (k : Key) (hd : (d.map (·.1)).Nodup) :
    ((kdRemove d k).map (·.1)).Nodup := by
  induction d with
  | nil => simpa [kdRemove] using hd
  | cons p rest ih =>
    obtain ⟨k₀, e₀⟩ := p
    simp only [List.map_cons, List.nodup_cons] at hd
    by_cases h : k₀ = k
    · simpa [kdRemove, h] using ih hd.2
    · rw [kdRemove, if_neg h]
      simp only [List.map_cons, List.nodup_cons]
      exact ⟨fun hmem => hd.1 (kdRemove_keys_subset rest k k₀ hmem), ih hd.2⟩

theorem kdInsert_nodup (d : KeyDir) (k : Key) (e : KeyDirEntry)
    (hd : (d.map (·.1)).Nodup) : ((kdInsert d k e).map (·.1)).Nodup := by
  rw [kdInsert, List.map_append]
  refine List.Nodup.append (kdRemove_nodup d k hd) (by simp) ?_
  intro a ha hb
  simp only [List.map_cons, List.map_nil, List.mem_singleton] at hb
  subst hb
  exact kdRemove_not_mem d a ha

/-! ### Codec lemmas -/

theorem leVal_u32le (n : Nat) : leVal (u32le n) = n % 4294967296 := by
  simp only [u32le, leVal]
  omega

theorem u32le_length (n : Nat) : (u32le n).length = 4 := rfl

theorem encodeEntry_length (e : LogEntry) :
    (encodeEntry e).length = 12 + e.key.length + e.value.length := by
  simp [encodeEntry, u32le]
  omega

theorem readFull_exact (pre seg rest : Bytes) (n : Nat) (h : seg.length = n) :
    readFull (pre ++ (seg ++ rest)) pre.length n = .ok seg := by
  subst h
  by_cases h0 : seg.length = 0
  · rw [List.eq_nil_of_length_eq_zero h0]
    simp [readFull]
  · have hlen : (pre ++ (seg ++ rest)).length = pre.length + (seg.length + rest.length) := by
      simp
    rw [readFull, if_neg h0, if_neg (by omega), if_neg (by omega)]
    rw [bytesAt, List.drop_left]
    rw [List.take_left seg rest]

theorem readFull_eof (c : Bytes) (pos n : Nat) (hn : n ≠ 0) (hpos : c.length ≤ pos) :
    readFull c pos n = .error "EOF" := by
  rw [readFull, if_neg hn, if_pos hpos]

/-- Decoding at the offset where an encoded well-formed record starts yields
exactly that record and the offset just past it. -/
theorem readEntry_encode (pre post : Bytes) (e : LogEntry) (hw : WFEntry e = true) :
    readEntry (pre ++ encodeEntry e ++ post) pre.length =
      .ok (e, pre.length + 12 + e.keySize + e.valueSize) := by
  obtain ⟨ts, ks, vs, k, v⟩ := e
  simp only [WFEntry, Bool.and_eq_true, decide_eq_true_eq] at hw
  obtain ⟨⟨⟨⟨hks, hvs⟩, hts⟩, hks32⟩, hvs32⟩ := hw
  subst hks hvs
  rw [readEntry]
  have e1 : pre ++ encodeEntry ⟨ts, k.length, v.length, k, v⟩ ++ post =
      pre ++ (u32le ts ++ (u32le k.length ++ (u32le v.length ++ (k ++ (v ++ post))))) := by
    simp [encodeEntry]
  rw [e1, readFull_exact pre (u32le ts) _ 4 (u32le_length ts)]
  dsimp only
  have e2 : pre ++ (u32le ts ++ (u32le k.length ++ (u32le v.length ++ (k ++ (v ++ post))))) =
      (pre ++ u32le ts) ++ (u32le k.length ++ (u32le v.length ++ (k ++ (v ++ post)))) := by
    simp
  have hp2 : pre.length + 4 = (pre ++ u32le ts).length := by simp [u32le]
  rw [e2, hp2, readFull_exact _ (u32le k.length) _ 4 (u32le_length _)]
  dsimp only
  have e3 : (pre ++ u32le ts) ++ (u32le k.length ++ (u32le v.length ++ (k ++ (v ++ post)))) =
      ((pre ++ u32le ts) ++ u32le k.length) ++ (u32le v.length ++ (k ++ (v ++ post))) := by
    simp
  have hp3 : pre.length + 8 = ((pre ++ u32le ts) ++ u32le k.length).length := by simp [u32le]
  rw [e3, hp3, readFull_exact _ (u32le v.length) _ 4 (u32le_length _)]
  dsimp only
  rw [leVal_u32le k.length, Nat.mod_eq_of_lt hks32]
  have e4 : ((pre ++ u32le ts) ++ u32le k.length) ++ (u32le v.length ++ (k ++ (v ++ post))) =
      (((pre ++ u32le ts) ++ u32le k.length) ++ u32le v.length) ++ (k ++ (v ++ post)) := by
    simp
  have hp4 : pre.length + 12 = (((pre ++ u32le ts) ++ u32le k.length) ++ u32le v.length).length := by
    simp [u32le]
  rw [e4, hp4, readFull_exact _ k _ k.length rfl]
  dsimp only
  rw [leVal_u32le v.length, Nat.mod_eq_of_lt hvs32]
  have e5 : (((pre ++ u32le ts) ++ u32le k.length) ++ u32le v.length) ++ (k ++ (v ++ post)) =
      ((((pre ++ u32le ts) ++ u32le k.length) ++ u32le v.length) ++ k) ++ (v ++ post) := by
    simp
  have hp5 : (((pre ++ u32le ts) ++ u32le k.length) ++ u32le v.length).length + k.length =
      ((((pre ++ u32le ts) ++ u32le k.length) ++ u32le v.length) ++ k).length := by
    simp
    omega
  rw [e5, hp5, readFull_exact _ v _ v.length rfl]
  dsimp only
  rw [leVal_u32le ts, Nat.mod_eq_of_lt hts]

/-! ### Replay lemmas -/

theorem readEntry_eof (c : Bytes) (pos : Nat) (hpos : c.length ≤ pos) :
    readEntry c pos = .error "EOF" := by
  rw [readEntry, readFull_eof c pos 4 (by omega) hpos]

theorem encodeList_length_ge (recs : List LogEntry) :
    recs.length ≤ (encodeList recs).length := by
  induction recs with
  | nil => simp [encodeList]
  | cons e rest ih =>
    rw [encodeList, List.length_append, encodeEntry_length]
    simp only [List.length_cons]
    omega

theorem encodeList_append (l₁ l₂ : List LogEntry) :
    encodeList (l₁ ++ l₂) = encodeList l₁ ++ encodeList l₂ := by
  induction l₁ with
  | nil => simp [encodeList]
  | cons e rest ih => simp [encodeList, ih]

theorem replayFuel_encodeList (fid : Nat) (recs : List LogEntry) :
    ∀ (fuel : Nat) (pre : Bytes) (d : KeyDir), (∀ e ∈ recs, WFEntry e = true) →
      recs.length < fuel →
      replayFuel fid (pre ++ encodeList recs) fuel pre.length d =
        .ok (applyRecs fid pre.length d recs) := by
  induction recs with
  | nil =>
    intro fuel pre d _ hfuel
    cases fuel with
    | zero => omega
    | succ n =>
      rw [encodeList, List.append_nil, replayFuel, readEntry_eof _ _ (le_refl _)]
      simp [applyRecs]
  | cons e rest ih =>
    intro fuel pre d hwf hfuel
    cases fuel with
    | zero => omega
    | succ n =>
      rw [replayFuel]
      have hsplit : pre ++ encodeList (e :: rest) = pre ++ encodeEntry e ++ encodeList rest := by
        rw [encodeList, List.append_assoc]
      have hre : readEntry (pre ++ encodeList (e :: rest)) pre.length =
          .ok (e, pre.length + 12 + e.keySize + e.valueSize) := by
        rw [hsplit]
        exact readEntry_encode pre (encodeList rest) e (hwf e (List.mem_cons_self e rest))
      rw [hre]
      dsimp only
      have hwfe := hwf e (List.mem_cons_self e rest)
      simp only [WFEntry, Bool.and_eq_true, decide_eq_true_eq] at hwfe
      have hlen2 : pre.length + 12 + e.keySize + e.valueSize = (pre ++ encodeEntry e).length := by
        rw [List.length_append, encodeEntry_length]
        omega
      have hc : pre ++ encodeList (e :: rest) = (pre ++ encodeEntry e) ++ encodeList rest := by
        rw [hsplit, List.append_assoc]
      rw [hlen2, hc, ih n (pre ++ encodeEntry e) _ (fun x hx => hwf x (List.mem_cons_of_mem e hx))
        (by simpa using Nat.lt_of_succ_lt_succ hfuel)]
      rw [applyRecs, applyRec, List.length_append]

theorem replayFuel_top (fid : Nat) (c : Bytes) (recs : List LogEntry) (d : KeyDir)
    (hc : c = encodeList recs) (hwf : ∀ e ∈ recs, WFEntry e = true) :
    replayFuel fid c (c.length + 1) 0 d = .ok (applyRecs fid 0 d recs) := by
  subst hc
  have := replayFuel_encodeList fid recs ((encodeList recs).length + 1) [] d hwf
    (by have := encodeList_length_ge recs; omega)
  simpa using this

theorem rebuildKeyDir_spec (d : KeyDir) (lf : LogFile) (recs : List LogEntry)
    (h : FileRec lf recs) : rebuildKeyDir d lf = .ok (applyRecs lf.id 0 d recs) := by
  exact replayFuel_top lf.id lf.fileData recs d h.1 h.2

theorem replayDisk_spec (files : Disk) :
    ∀ (frs : List (Nat × List LogEntry)) (d : KeyDir),
      List.Forall₂ DiskRec files frs →
      replayDisk files d = .ok (recsDisk frs d) := by
  induction files with
  | nil =>
    intro frs d h
    cases h
    rfl
  | cons p rest ih =>
    intro frs d h
    cases h with
    | cons hpq htail =>
      obtain ⟨i, c⟩ := p
      obtain ⟨hid, hc, hwf⟩ := hpq
      rw [replayDisk, replayFuel_top i c _ d hc hwf]
      dsimp only
      rename_i q frs'
      rw [ih frs' _ htail, recsDisk]
      simp only at hid
      rw [hid]

theorem applyRecs_append (fid : Nat) (recs : List LogEntry) (e : LogEntry) :
    ∀ (pos : Nat) (d : KeyDir), applyRecs fid pos d (recs ++ [e]) =
      applyRec fid (pos + (encodeList recs).length) (applyRecs fid pos d recs) e := by
  induction recs with
  | nil => simp [applyRecs, encodeList]
  | cons a rest ih =>
    intro pos d
    rw [List.cons_append, applyRecs, ih, applyRecs]
    congr 1
    rw [encodeList, List.length_append]
    omega

theorem recsDisk_append (frs : List (Nat × List LogEntry)) (q : Nat × List LogEntry) :
    ∀ d, recsDisk (frs ++ [q]) d = applyRecs q.1 0 (recsDisk frs d) q.2 := by
  induction frs with
  | nil => intro d; obtain ⟨i, recs⟩ := q; rfl
  | cons p rest ih =>
    intro d
    obtain ⟨i, recs⟩ := p
    rw [List.cons_append, recsDisk, ih, recsDisk]

theorem kdLookup_applyRec (fid pos : Nat) (d : KeyDir) (e : LogEntry) (k : Key) :
    kdLookup (applyRec fid pos d e) k =
      if k = e.key then
        (if e.valueSize = 0 then none
         else some ⟨fid, e.valueSize, pos + 12 + e.keySize, e.timestamp⟩)
      else kdLookup d k := by
  rw [applyRec]
  by_cases h : e.valueSize = 0 <;> simp [h, kdLookup_remove, kdLookup_insert]

/-! ### Sorting and recovery structure lemmas -/

theorem strictSorted_tail (a : Nat) (l : List Nat) (h : strictSorted (a :: l) = true) :
    strictSorted l = true := by
  cases l with
  | nil => rfl
  | cons b rest =>
    simp only [strictSorted, Bool.and_eq_true] at h
    exact h.2

theorem strictSorted_lt_all (a : Nat) (l : List Nat) (h : strictSorted (a :: l) = true) :
    ∀ b ∈ l, a < b := by
  induction l generalizing a with
  | nil => intro b hb; simp at hb
  | cons c r ih =>
    intro b hb
    have hac : a < c := by
      simp only [strictSorted, Bool.and_eq_true, decide_eq_true_eq] at h
      exact h.1
    have h2 : strictSorted (c :: r) = true := strictSorted_tail a (c :: r) h
    rcases List.mem_cons.mp hb with rfl | hb2
    · exact hac
    · exact lt_trans hac (ih c h2 b hb2)

theorem sortIds_sorted (l : List Nat) : strictSorted l = true → sortIds l = l := by
  induction l with
  | nil => intro _; rfl
  | cons a rest ih =>
    intro h
    show insertSorted a (sortIds rest) = a :: rest
    rw [ih (strictSorted_tail a rest h)]
    cases rest with
    | nil => rfl
    | cons b r =>
      have hab : a < b := by
        simp only [strictSorted, Bool.and_eq_true, decide_eq_true_eq] at h
        exact h.1
      rw [insertSorted, if_pos (Nat.le_of_lt hab)]

theorem diskLookup_mem (disk : Disk) (h : strictSorted (disk.map (·.1)) = true) :
    ∀ p ∈ disk, diskLookup disk p.1 = some p.2 := by
  induction disk with
  | nil => intro p hp; simp at hp
  | cons q rest ih =>
    intro p hp
    obtain ⟨i, c⟩ := q
    simp only [List.map_cons] at h
    rcases List.mem_cons.mp hp with rfl | hp2
    · simp [diskLookup]
    · have hmem : p.1 ∈ rest.map (·.1) := List.mem_map_of_mem _ hp2
      have hlt : i < p.1 := strictSorted_lt_all i (rest.map (·.1)) h p.1 hmem
      rw [diskLookup, if_neg (Nat.ne_of_lt hlt)]
      exact ih (strictSorted_tail _ _ h) p hp2

theorem loadLoop_spec (disk : Disk) :
    ∀ (rem : Disk) (ro : List LogFile) (kd : KeyDir),
      (∀ p ∈ rem, diskLookup disk p.1 = some p.2) →
      loadLoop disk (rem.map (·.1)) ro kd =
        match replayDisk rem kd with
        | .error e => .error e
        | .ok kd' => .ok (ro ++ rem.map (fun p => roFile p.1 p.2), kd') := by
  intro rem
  induction rem with
  | nil =>
    intro ro kd _
    simp [loadLoop, replayDisk]
  | cons q rest ih =>
    intro ro kd hmem
    obtain ⟨i, c⟩ := q
    have hhd : diskLookup disk i = some c := hmem (i, c) (List.mem_cons_self _ _)
    rw [List.map_cons, loadLoop, hhd]
    dsimp only
    have hrb : rebuildKeyDir kd (roFile i c) = replayFuel i c (c.length + 1) 0 kd := rfl
    rw [hrb, replayDisk]
    cases hrf : replayFuel i c (c.length + 1) 0 kd with
    | error e => rfl
    | ok kd' =>
      dsimp only
      rw [ih (ro ++ [roFile i c]) kd' (fun p hp => hmem p (List.mem_cons_of_mem _ hp))]
      cases replayDisk rest kd' with
      | error e => rfl
      | ok kd₂ => simp

theorem openDisk_spec (cfg : Config) (disk : Disk) (h : strictSorted (disk.map (·.1)) = true) :
    openDisk cfg disk =
      match replayDisk disk [] with
      | .error e => .error e
      | .ok kd =>
        .ok ⟨kd, newLogFile (maxId (disk.map (fun p => roFile p.1 p.2)) + 1),
             disk.map (fun p => roFile p.1 p.2), cfg⟩ := by
  rw [openDisk, sortIds_sorted _ h, loadLoop_spec disk disk [] [] (diskLookup_mem disk h)]
  cases replayDisk disk [] with
  | error e => rfl
  | ok kd => simp

/-! ### Closed forms of the failure-free operations -/

theorem put_eq_noRotate (bc : Bitcask) (ts : Nat) (k : Key) (v : Bytes)
    (hro : bc.activeFile.readOnly = false)
    (hsz : ¬ bc.activeFile.size ≥ bc.config.maxFileSize) :
    bc.put ts k v =
      ({ appendActive bc (mkEntry ts k v) with
         keyDir := kdInsert bc.keyDir k
           ⟨bc.activeFile.id, (mkEntry ts k v).valueSize,
            bc.activeFile.size + 12 + k.length, (mkEntry ts k v).timestamp⟩ }, none) := by
  rw [Bitcask.put, Bitcask.putF]
  rw [if_neg (by simp [noFail])]
  simp only [noFail, if_neg hsz, Bool.false_eq_true, if_false]
  rw [LogFile.write, if_neg (by rw [hro]; simp)]
  dsimp only
  rw [if_neg (by simp), if_neg (by simp)]
  by_cases hsw : bc.config.syncWrites = true <;>
    simp [hsw, LogFile.sync, LogFile.flush, hro, appendActive, mkEntry]

theorem put_eq_rotate (bc : Bitcask) (ts : Nat) (k : Key) (v : Bytes)
    (hsz : bc.activeFile.size ≥ bc.config.maxFileSize) :
    bc.put ts k v =
      ({ appendActive bc.rotateActiveFile (mkEntry ts k v) with
         keyDir := kdInsert bc.rotateActiveFile.keyDir k
           ⟨bc.rotateActiveFile.activeFile.id, (mkEntry ts k v).valueSize,
            bc.rotateActiveFile.activeFile.size + 12 + k.length, (mkEntry ts k v).timestamp⟩ }, none) := by
  rw [Bitcask.put, Bitcask.putF]
  rw [if_neg (by simp [noFail])]
  simp only [noFail, if_pos hsz, Bool.false_eq_true, if_false]
  generalize hB : bc.rotateActiveFile = B
  have hro2 : B.activeFile.readOnly = false := by rw [← hB]; rfl
  rw [LogFile.write, if_neg (by rw [hro2]; simp)]
  dsimp only
  rw [if_neg (by simp), if_neg (by simp)]
  by_cases hsw : B.config.syncWrites = true <;>
    simp [hsw, LogFile.sync, LogFile.flush, hro2, appendActive, mkEntry]

theorem delete_eq_notFound (bc : Bitcask) (ts : Nat) (k : Key)
    (h : kdLookup bc.keyDir k = none) :
    bc.delete ts k = (bc, some "key not found") := by
  rw [Bitcask.delete, Bitcask.deleteF, h]

theorem delete_eq_found (bc : Bitcask) (ts : Nat) (k : Key) (e : KeyDirEntry)
    (h : kdLookup bc.keyDir k = some e)
    (hro : bc.activeFile.readOnly = false) :
    bc.delete ts k =
      ({ appendActive bc (mkEntry ts k []) with keyDir := kdRemove bc.keyDir k }, none) := by
  rw [Bitcask.delete, Bitcask.deleteF, h]
  dsimp only
  rw [if_neg (by simp [noFail])]
  rw [LogFile.write, if_neg (by rw [hro]; simp)]
  dsimp only
  rw [if_neg (by simp [noFail]), if_neg (by simp [noFail])]
  by_cases hsw : bc.config.syncWrites = true <;>
    simp [hsw, LogFile.sync, LogFile.flush, hro, appendActive, mkEntry, noFail]

/-! ### Read-back lemmas -/

theorem bytesAt_of_eq (c pre seg rest : Bytes) (pos n : Nat)
    (hc : c = pre ++ (seg ++ rest)) (hpos : pos = pre.length) (hn : n = seg.length) :
    bytesAt c pos n = seg := by
  subst hc hpos hn
  rw [bytesAt, List.drop_left, List.take_left seg rest]

/-- After appending a record for `(k, v)` and installing its directory entry,
reading `k` returns `v`. -/
theorem get_appendActive (bc1 : Bitcask) (ts : Nat) (k : Key) (v : Bytes)
    (hacc : bc1.activeFile.size = bc1.activeFile.fileData.length + bc1.activeFile.buffer.length)
    (hv : v.length < 4294967296) :
    Bitcask.get { appendActive bc1 (mkEntry ts k v) with
        keyDir := kdInsert bc1.keyDir k
          ⟨bc1.activeFile.id, (mkEntry ts k v).valueSize,
           bc1.activeFile.size + 12 + k.length, (mkEntry ts k v).timestamp⟩ } k = .ok v := by
  rw [Bitcask.get]
  have h1 : kdLookup (Bitcask.keyDir { appendActive bc1 (mkEntry ts k v) with
      keyDir := kdInsert bc1.keyDir k
        ⟨bc1.activeFile.id, (mkEntry ts k v).valueSize,
         bc1.activeFile.size + 12 + k.length, (mkEntry ts k v).timestamp⟩ }) k =
      some ⟨bc1.activeFile.id, (mkEntry ts k v).valueSize,
        bc1.activeFile.size + 12 + k.length, (mkEntry ts k v).timestamp⟩ := by
    show kdLookup (kdInsert bc1.keyDir k _) k = _
    rw [kdLookup_insert, if_pos rfl]
  rw [h1]
  dsimp only
  rw [readLoc]
  have hid : (Bitcask.activeFile { appendActive bc1 (mkEntry ts k v) with
      keyDir := kdInsert bc1.keyDir k
        ⟨bc1.activeFile.id, (mkEntry ts k v).valueSize,
         bc1.activeFile.size + 12 + k.length, (mkEntry ts k v).timestamp⟩ }).id =
      bc1.activeFile.id := rfl
  rw [if_pos hid.symm]
  dsimp only [appendActive]
  have hvs : (mkEntry ts k v).valueSize = v.length := by
    rw [mkEntry]
    exact Nat.mod_eq_of_lt hv
  rw [hvs, LogFile.read]
  by_cases hv0 : v.length = 0
  · rw [if_pos hv0, List.eq_nil_of_length_eq_zero hv0]
  · have hlen : (bc1.activeFile.fileData ++
        (bc1.activeFile.buffer ++ encodeEntry (mkEntry ts k v))).length =
        bc1.activeFile.size + 12 + k.length + v.length := by
      simp only [List.length_append, encodeEntry_length, mkEntry]
      omega
    rw [if_neg hv0, if_pos (by rw [hlen])]
    have hsplit : bc1.activeFile.fileData ++ (bc1.activeFile.buffer ++ encodeEntry (mkEntry ts k v)) =
        (bc1.activeFile.fileData ++ (bc1.activeFile.buffer ++
          (u32le (mkEntry ts k v).timestamp ++ u32le (mkEntry ts k v).keySize ++
           u32le (mkEntry ts k v).valueSize ++ k))) ++ (v ++ []) := by
      simp [encodeEntry, mkEntry]
    have hpos : bc1.activeFile.size + 12 + k.length =
        (bc1.activeFile.fileData ++ (bc1.activeFile.buffer ++
          (u32le (mkEntry ts k v).timestamp ++ u32le (mkEntry ts k v).keySize ++
           u32le (mkEntry ts k v).valueSize ++ k))).length := by
      simp only [List.length_append, u32le_length]
      omega
    rw [bytesAt_of_eq _ _ v [] _ _ hsplit hpos rfl]

/-- Helper size accounting for the state right after a rotation: the fresh
active file is empty. -/
theorem rotate_active_acc (bc : Bitcask) :
    bc.rotateActiveFile.activeFile.size =
      bc.rotateActiveFile.activeFile.fileData.length +
        bc.rotateActiveFile.activeFile.buffer.length := rfl

/-- C3 (claim theorem): if `put(k, v)` returns successfully then a subsequent
`get(k)` in the same process returns exactly `v`, even without an intervening
sync — the write path always flushes the bufio buffer before acknowledging.
Hypotheses: the active file is writable with accurate tracked size (true in
every reachable state), and key and value fit the `uint32` length fields. -/
theorem c3_put_then_get (bc : Bitcask) (ts : Nat) (k : Key) (v : Bytes)
    (hro : bc.activeFile.readOnly = false)
    (hacc : bc.activeFile.size = bc.activeFile.fileData.length + bc.activeFile.buffer.length)
    (hv : v.length < 4294967296) :
    (bc.put ts k v).2 = none ∧ (bc.put ts k v).1.get k = .ok v := by
  by_cases hsz : bc.activeFile.size ≥ bc.config.maxFileSize
  · rw [put_eq_rotate bc ts k v hsz]
    exact ⟨rfl, get_appendActive bc.rotateActiveFile ts k v (rotate_active_acc bc) hv⟩
  · rw [put_eq_noRotate bc ts k v hro hsz]
    exact ⟨rfl, get_appendActive bc ts k v hacc hv⟩

/-- C3 witness. -/
theorem c3_witness :
    (freshBitcask ⟨1000, false⟩).activeFile.readOnly = false ∧
    (freshBitcask ⟨1000, false⟩).activeFile.size =
      (freshBitcask ⟨1000, false⟩).activeFile.fileData.length +
        (freshBitcask ⟨1000, false⟩).activeFile.buffer.length ∧
    [5, 6].length < 4294967296 ∧
    ((freshBitcask ⟨1000, false⟩).put 7 [1, 2] [5, 6]).2 = none ∧
    ((freshBitcask ⟨1000, false⟩).put 7 [1, 2] [5, 6]).1.get [1, 2] = .ok [5, 6] := by
  refine ⟨by decide, by decide, by decide, ?_⟩
  exact c3_put_then_get (freshBitcask ⟨1000, false⟩) 7 [1, 2] [5, 6] (by decide) (by decide) (by decide)

/-- C4 (claim theorem): decoding the bytes produced by encoding a record at any
offset yields the same record (timestamp, key and value), and the returned
next offset is `offset + 12 + key_length + value_length`; this covers
zero-length keys, zero-length values and tombstones. The record is assumed to
carry exact size fields fitting `uint32`, as every record built by the engine
does. -/
theorem c4_codec_roundTrip (pre post : Bytes) (e : LogEntry)
    (hk : e.keySize = e.key.length) (hv : e.valueSize = e.value.length)
    (hts : e.timestamp < 4294967296) (hks : e.keySize < 4294967296)
    (hvs : e.valueSize < 4294967296) :
    readEntry (pre ++ encodeEntry e ++ post) pre.length =
      .ok (e, pre.length + 12 + e.keySize + e.valueSize) := by
  apply readEntry_encode
  simp only [WFEntry, Bool.and_eq_true, decide_eq_true_eq]
  exact ⟨⟨⟨⟨hk, hv⟩, hts⟩, hks⟩, hvs⟩

/-- C4 witness, with a tombstone record having a zero-length key. -/
theorem c4_witness :
    (⟨7, 0, 0, [], []⟩ : LogEntry).keySize = (⟨7, 0, 0, [], []⟩ : LogEntry).key.length ∧
    (⟨7, 0, 0, [], []⟩ : LogEntry).valueSize = (⟨7, 0, 0, [], []⟩ : LogEntry).value.length ∧
    (⟨7, 0, 0, [], []⟩ : LogEntry).timestamp < 4294967296 ∧
    readEntry ([9] ++ encodeEntry ⟨7, 0, 0, [], []⟩ ++ [3, 4]) [9].length =
      .ok (⟨7, 0, 0, [], []⟩, [9].length + 12 + 0 + 0) := by
  refine ⟨by decide, by decide, by decide, ?_⟩
  exact c4_codec_roundTrip [9] [3, 4] ⟨7, 0, 0, [], []⟩ (by decide) (by decide) (by decide)
    (by decide) (by decide)

/-- C6 (claim theorem): after a successful `delete(k)` on a live key, `get(k)`
reports not-found and `keys()` does not include `k`. -/
theorem c6_delete_not_found (bc : Bitcask) (ts : Nat) (k : Key) (e : KeyDirEntry)
    (h : kdLookup bc.keyDir k = some e)
    (hro : bc.activeFile.readOnly = false) :
    (bc.delete ts k).2 = none ∧
    (bc.delete ts k).1.get k = .error "key not found" ∧
    k ∉ (bc.delete ts k).1.keys := by
  rw [delete_eq_found bc ts k e h hro]
  refine ⟨rfl, ?_, ?_⟩
  · rw [Bitcask.get]
    have h2 : kdLookup (kdRemove bc.keyDir k) k = none := by
      rw [kdLookup_remove, if_pos rfl]
    show (match kdLookup (kdRemove bc.keyDir k) k with
      | none => Except.error "key not found"
      | some e => readLoc _ e) = Except.error "key not found"
    rw [h2]
  · show k ∉ (kdRemove bc.keyDir k).map (·.1)
    exact kdRemove_not_mem bc.keyDir k

/-- C6 witness. -/
theorem c6_witness :
    kdLookup ((freshBitcask ⟨1000, false⟩).put 7 [1] [5]).1.keyDir [1] =
      some ⟨1, 1, 13, 7⟩ ∧
    ((((freshBitcask ⟨1000, false⟩).put 7 [1] [5]).1).delete 8 [1]).2 = none ∧
    ((((freshBitcask ⟨1000, false⟩).put 7 [1] [5]).1).delete 8 [1]).1.get [1] =
      .error "key not found" ∧
    [1] ∉ ((((freshBitcask ⟨1000, false⟩).put 7 [1] [5]).1).delete 8 [1]).1.keys := by
  refine ⟨by decide, ?_⟩
  have h := c6_delete_not_found (((freshBitcask ⟨1000, false⟩).put 7 [1] [5]).1) 8 [1]
    ⟨1, 1, 13, 7⟩ (by decide) (by decide)
  exact h

/-- C10 (claim theorem): `delete` never rotates the active segment: whatever
the state (in particular even when the active size is at or beyond
`max_file_size`), after a delete the active segment id is unchanged, the
sealed set is unchanged, and the active size has only grown. -/
theorem c10_delete_never_rotates (bc : Bitcask) (ts : Nat) (k : Key) :
    (bc.delete ts k).1.activeFile.id = bc.activeFile.id ∧
    (bc.delete ts k).1.readOnlyFiles = bc.readOnlyFiles ∧
    bc.activeFile.size ≤ (bc.delete ts k).1.activeFile.size := by
  cases hl : kdLookup bc.keyDir k with
  | none => rw [delete_eq_notFound bc ts k hl]; exact ⟨rfl, rfl, le_refl _⟩
  | some e =>
    by_cases hro : bc.activeFile.readOnly = false
    · rw [delete_eq_found bc ts k e hl hro]
      exact ⟨rfl, rfl, by dsimp only [appendActive]; omega⟩
    · have hro2 : bc.activeFile.readOnly = true := by
        cases h : bc.activeFile.readOnly
        · exact absurd h hro
        · rfl
      rw [Bitcask.delete, Bitcask.deleteF, hl]
      dsimp only
      rw [if_neg (by simp [noFail]), LogFile.write, if_pos hro2]
      exact ⟨rfl, rfl, le_refl _⟩

/-- C7 (claim theorem): whenever `Put` or `Delete` returns an error — for any
failing elementary step (sync during rotation, append, sync, flush) and also
for a delete of an absent key — the key directory of the resulting state is
exactly the key directory of the prior state: the only in-memory index
mutation sits after every fallible step. -/
theorem c7_failed_ops_preserve_keyDir :
    (∀ (bc : Bitcask) (fp : FailurePlan) (ts : Nat) (k : Key) (v : Bytes)
        (st' : Bitcask) (err : String),
        bc.putF fp ts k v = (st', some err) → st'.keyDir = bc.keyDir) ∧
    (∀ (bc : Bitcask) (fp : FailurePlan) (ts : Nat) (k : Key)
        (st' : Bitcask) (err : String),
        bc.deleteF fp ts k = (st', some err) → st'.keyDir = bc.keyDir) := by
  constructor
  · intro bc fp ts k v st' err h
    rw [Bitcask.putF] at h
    dsimp only at h
    repeat' split at h
    all_goals injection h with h1 h2
    all_goals first
      | exact Option.noConfusion h2
      | (rw [← h1]; done)
      | (rw [← h1]; rfl)
      | (rw [← h1]; split <;> rfl)
  · intro bc fp ts k st' err h
    rw [Bitcask.deleteF] at h
    dsimp only at h
    repeat' split at h
    all_goals injection h with h1 h2
    all_goals first
      | exact Option.noConfusion h2
      | (rw [← h1]; done)
      | (rw [← h1]; rfl)
      | (rw [← h1]; split <;> rfl)

/-- C7 witness: an injected append failure on a put leaves the key directory
unchanged. -/
theorem c7_witness :
    (freshBitcask ⟨1000, false⟩).putF ⟨false, true, false, false⟩ 0 [1] [2] =
      (((freshBitcask ⟨1000, false⟩).putF ⟨false, true, false, false⟩ 0 [1] [2]).1,
        some "failed to write entry") ∧
    ((freshBitcask ⟨1000, false⟩).putF ⟨false, true, false, false⟩ 0 [1] [2]).1.keyDir =
      (freshBitcask ⟨1000, false⟩).keyDir := by
  refine ⟨by decide, ?_⟩
  exact c7_failed_ops_preserve_keyDir.1 (freshBitcask ⟨1000, false⟩) ⟨false, true, false, false⟩
    0 [1] [2] ((freshBitcask ⟨1000, false⟩).putF ⟨false, true, false, false⟩ 0 [1] [2]).1
    "failed to write entry" (by decide)

/-! ### Segment set lemmas -/

theorem lfLookup_append_left (ro l : List LogFile) (i : Nat) (f : LogFile)
    (h : lfLookup ro i = some f) : lfLookup (ro ++ l) i = some f := by
  induction ro with
  | nil => simp [lfLookup] at h
  | cons g rest ih =>
    rw [List.cons_append]
    rw [lfLookup] at h
    rw [lfLookup]
    by_cases hg : g.id = i
    · rw [if_pos hg] at h
      rw [if_pos hg]
      exact h
    · rw [if_neg hg] at h
      rw [if_neg hg]
      exact ih h

theorem lfLookup_append_last (ro : List LogFile) (f : LogFile)
    (h : ∀ g ∈ ro, g.id ≠ f.id) : lfLookup (ro ++ [f]) f.id = some f := by
  induction ro with
  | nil => simp [lfLookup]
  | cons g rest ih =>
    rw [List.cons_append, lfLookup, if_neg (h g (List.mem_cons_self g rest))]
    exact ih (fun g' hg' => h g' (List.mem_cons_of_mem g hg'))

theorem lfLookup_some_mem (ro : List LogFile) (i : Nat) (f : LogFile)
    (h : lfLookup ro i = some f) : f ∈ ro ∧ f.id = i := by
  induction ro with
  | nil => simp [lfLookup] at h
  | cons g rest ih =>
    rw [lfLookup] at h
    by_cases hg : g.id = i
    · rw [if_pos hg] at h
      injection h with h1
      subst h1
      exact ⟨List.mem_cons_self g rest, hg⟩
    · rw [if_neg hg] at h
      obtain ⟨h1, h2⟩ := ih h
      exact ⟨List.mem_cons_of_mem g h1, h2⟩

theorem maxId_foldl_le (l : List LogFile) :
    ∀ (m n : Nat), m ≤ n → (∀ g ∈ l, g.id ≤ n) →
      l.foldl (fun m f => if f.id > m then f.id else m) m ≤ n := by
  induction l with
  | nil => intro m n hm _; simpa using hm
  | cons g rest ih =>
    intro m n hm hl
    rw [List.foldl_cons]
    have hg := hl g (List.mem_cons_self g rest)
    refine ih _ n ?_ (fun g' hg' => hl g' (List.mem_cons_of_mem g hg'))
    split <;> omega

theorem maxId_append_last (ro : List LogFile) (f : LogFile)
    (h : ∀ g ∈ ro, g.id ≤ f.id) : maxId (ro ++ [f]) = f.id := by
  rw [maxId, List.foldl_append]
  have hle := maxId_foldl_le ro 0 f.id (Nat.zero_le _) h
  rw [List.foldl_cons, List.foldl_nil]
  split <;> omega

theorem strictSorted_append_last (l : List Nat) (b : Nat)
    (hs : strictSorted l = true) (hb : ∀ x ∈ l, x < b) :
    strictSorted (l ++ [b]) = true := by
  induction l with
  | nil => rfl
  | cons a rest ih =>
    cases rest with
    | nil =>
      have := hb a (List.mem_cons_self a [])
      simp [strictSorted, this]
    | cons c r =>
      simp only [strictSorted, Bool.and_eq_true, decide_eq_true_eq] at hs
      have hih := ih hs.2 (fun x hx => hb x (List.mem_cons_of_mem a hx))
      rw [List.cons_append]
      show (decide (a < c) && strictSorted (c :: (r ++ [b]))) = true
      rw [Bool.and_eq_true, decide_eq_true_eq]
      exact ⟨hs.1, hih⟩

theorem strictSorted_append_left (l₁ l₂ : List Nat)
    (h : strictSorted (l₁ ++ l₂) = true) : strictSorted l₁ = true := by
  induction l₁ with
  | nil => rfl
  | cons a rest ih =>
    cases rest with
    | nil => rfl
    | cons c r =>
      simp only [List.cons_append, strictSorted, Bool.and_eq_true, decide_eq_true_eq] at h ⊢
      exact ⟨h.1, by simpa using ih (by simpa using h.2)⟩

theorem strictSorted_last_gt (l : List Nat) (b : Nat)
    (h : strictSorted (l ++ [b]) = true) : ∀ x ∈ l, x < b := by
  induction l with
  | nil => intro x hx; simp at hx
  | cons a rest ih =>
    intro x hx
    rcases List.mem_cons.mp hx with rfl | hx2
    · have := strictSorted_lt_all x (rest ++ [b]) (by simpa using h)
      exact this b (List.mem_append_right _ (List.mem_singleton_self b))
    · exact ih (strictSorted_tail _ _ (by simpa using h)) x hx2

/-! ### Read preservation lemmas -/

theorem read_congr (lf₁ lf₂ : LogFile) (hd : lf₁.fileData = lf₂.fileData) (p n : Nat) :
    lf₁.read p n = lf₂.read p n := by
  rw [LogFile.read, LogFile.read, hd]

theorem bytesAt_append_of_le (d ext : Bytes) (p n : Nat) (h : p + n ≤ d.length) :
    bytesAt (d ++ ext) p n = bytesAt d p n := by
  rw [bytesAt, bytesAt, List.drop_append_eq_append_drop,
    List.take_append_of_le_length (by rw [List.length_drop]; omega)]

theorem read_append_of_ok (d ext : Bytes) (b₁ b₂ : Bytes) (i₁ i₂ s₁ s₂ : Nat) (r₁ r₂ : Bool)
    (p n : Nat) (v : Bytes)
    (h : LogFile.read ⟨i₁, d, b₁, s₁, r₁⟩ p n = .ok v) :
    LogFile.read ⟨i₂, d ++ ext, b₂, s₂, r₂⟩ p n = .ok v := by
  rw [LogFile.read] at h ⊢
  by_cases h0 : n = 0
  · rw [if_pos h0] at h ⊢
    exact h
  · rw [if_neg h0] at h ⊢
    by_cases hle : p + n ≤ d.length
    · rw [if_pos hle] at h
      rw [if_pos (show p + n ≤ (d ++ ext).length by rw [List.length_append]; omega)]
      rw [← h]
      show Except.ok (bytesAt (d ++ ext) p n) = _
      rw [bytesAt_append_of_le d ext p n hle]
    · rw [if_neg hle] at h
      exact absurd h (by simp)

/-! ### Multi-file replay composition -/

theorem replayDisk_append (l₁ l₂ : Disk) (d : KeyDir) :
    replayDisk (l₁ ++ l₂) d =
      match replayDisk l₁ d with
      | .error e => .error e
      | .ok d' => replayDisk l₂ d' := by
  induction l₁ generalizing d with
  | nil => simp [replayDisk]
  | cons p rest ih =>
    obtain ⟨i, c⟩ := p
    rw [List.cons_append, replayDisk, replayDisk]
    cases replayFuel i c (c.length + 1) 0 d with
    | error e => rfl
    | ok d' => exact ih d'

theorem replayDisk_snocFile (files : Disk) (i : Nat) (c : Bytes) (recs : List LogEntry)
    (e : LogEntry) (d₀ d : KeyDir)
    (hc : c = encodeList recs) (hwf : ∀ x ∈ recs, WFEntry x = true)
    (hwe : WFEntry e = true)
    (h : replayDisk (files ++ [(i, c)]) d₀ = .ok d) :
    replayDisk (files ++ [(i, c ++ encodeEntry e)]) d₀ = .ok (applyRec i c.length d e) := by
  rw [replayDisk_append] at h ⊢
  cases hrm : replayDisk files d₀ with
  | error err =>
    rw [hrm] at h
    exact absurd h (by simp)
  | ok dm =>
    rw [hrm] at h
    dsimp only at h
    rw [show replayDisk [(i, c)] dm =
        (match replayFuel i c (c.length + 1) 0 dm with
         | .error e => .error e
         | .ok d' => replayDisk [] d') from rfl] at h
    rw [replayFuel_top i c recs dm hc hwf] at h
    dsimp only [replayDisk] at h
    injection h with h1
    have hc2 : c ++ encodeEntry e = encodeList (recs ++ [e]) := by
      rw [encodeList_append, hc, encodeList, encodeList, List.append_nil]
    have hwf2 : ∀ x ∈ recs ++ [e], WFEntry x = true := by
      intro x hx
      rcases List.mem_append.mp hx with hx1 | hx1
      · exact hwf x hx1
      · rw [List.mem_singleton.mp hx1]; exact hwe
    dsimp only
    rw [show replayDisk [(i, c ++ encodeEntry e)] dm =
        (match replayFuel i (c ++ encodeEntry e) ((c ++ encodeEntry e).length + 1) 0 dm with
         | .error e => .error e
         | .ok d' => replayDisk [] d') from rfl]
    rw [replayFuel_top i (c ++ encodeEntry e) (recs ++ [e]) dm hc2 hwf2]
    dsimp only [replayDisk]
    rw [applyRecs_append, ← h1, hc, Nat.zero_add]

theorem replayDisk_snocEmpty (files : Disk) (i : Nat) (d₀ : KeyDir) :
    replayDisk (files ++ [(i, [])]) d₀ = replayDisk files d₀ := by
  rw [replayDisk_append]
  cases replayDisk files d₀ with
  | error e => rfl
  | ok d =>
    dsimp only
    rw [show replayDisk [(i, [])] d =
        (match replayFuel i [] 1 0 d with
         | .error e => .error e
         | .ok d' => replayDisk [] d') from rfl]
    rw [replayFuel, readEntry_eof [] 0 (by simp)]
    simp [replayDisk]

/-! ### The reachability invariant -/

theorem liveSpec_append (ops : List Op) (op : Op) :
    liveSpec (ops ++ [op]) = applySpecOp (liveSpec ops) op := by
  rw [liveSpec, liveSpec, List.foldl_append]
  rfl

theorem run_append (bc : Bitcask) (ops : List Op) (op : Op) :
    run bc (ops ++ [op]) = stepOp (run bc ops) op := by
  rw [run, run, List.foldl_append]
  rfl

theorem active_mem_allFiles (bc : Bitcask) : bc.activeFile ∈ allFiles bc :=
  List.mem_append_right _ (List.mem_singleton_self _)

theorem sealed_mem_allFiles (bc : Bitcask) (f : LogFile) (hf : f ∈ bc.readOnlyFiles) :
    f ∈ allFiles bc :=
  List.mem_append_left _ hf

theorem WFEntry_mkEntry (ts : Nat) (k : Key) (v : Bytes)
    (hk : k.length < 4294967296) (hv : v.length < 4294967296) :
    WFEntry (mkEntry ts k v) = true := by
  simp [WFEntry, mkEntry, Nat.mod_eq_of_lt hk, Nat.mod_eq_of_lt hv]
  omega

theorem sync_flushed (lf : LogFile) (hb : lf.buffer = []) : lf.sync = lf := by
  obtain ⟨i, d, b, s, r⟩ := lf
  simp only at hb
  subst hb
  rw [LogFile.sync, LogFile.flush]
  dsimp only
  cases r <;> simp

theorem sealed_lt_active (bc : Bitcask) (h : IdInv bc) :
    ∀ f ∈ bc.readOnlyFiles, f.id < bc.activeFile.id := by
  intro f hf
  have hs := h.1
  rw [allFiles, List.map_append] at hs
  exact strictSorted_last_gt _ _ hs f.id (List.mem_map_of_mem _ hf)

/-- Under the invariant the rotation has a simple closed form: the active file
is already flushed, and the new id is the old active id plus one. -/
theorem rotate_eq (bc : Bitcask) (h : IdInv bc) :
    bc.rotateActiveFile =
      { bc with readOnlyFiles := bc.readOnlyFiles ++ [bc.activeFile],
                activeFile := newLogFile (bc.activeFile.id + 1) } := by
  rw [Bitcask.rotateActiveFile]
  rw [sync_flushed _ (h.2.1 _ (active_mem_allFiles bc))]
  rw [maxId_append_last _ _ (fun g hg => le_of_lt (sealed_lt_active bc h g hg))]

theorem IdInv_fresh (cfg : Config) : IdInv (freshBitcask cfg) := by
  refine ⟨rfl, ?_, ?_, rfl, le_refl 1⟩
  · intro f hf
    simp only [allFiles, freshBitcask, newLogFile, List.nil_append, List.mem_singleton] at hf
    rw [hf]
  · intro f hf
    simp only [allFiles, freshBitcask, newLogFile, List.nil_append, List.mem_singleton] at hf
    rw [hf]
    rfl

theorem EngInv_fresh (cfg : Config) : EngInv [] (freshBitcask cfg) := by
  refine ⟨IdInv_fresh cfg, ?_, ?_, ?_, ?_, ?_⟩
  · intro f hf
    simp only [allFiles, freshBitcask, newLogFile, List.nil_append, List.mem_singleton] at hf
    exact ⟨[], by rw [hf]; exact ⟨rfl, by intro e he; simp at he⟩⟩
  · simp [freshBitcask]
  · intro k e h
    simp [freshBitcask, kdLookup] at h
  · intro k _
    rfl
  · intro _
    refine ⟨[], ?_, fun k => rfl⟩
    rfl

theorem read_extend (lf lf' : LogFile) (ext : Bytes)
    (hd : lf'.fileData = lf.fileData ++ ext) (p n : Nat) (v : Bytes)
    (h : lf.read p n = .ok v) : lf'.read p n = .ok v := by
  obtain ⟨i, d, b, s, r⟩ := lf
  obtain ⟨i', d', b', s', r'⟩ := lf'
  simp only at hd
  subst hd
  exact read_append_of_ok d ext b b' i i' s s' r r' p n v h

theorem readLoc_appendActive (bc1 : Bitcask) (ent : LogEntry) (kd : KeyDir)
    (e : KeyDirEntry) (v : Bytes) (hr : readLoc bc1 e = .ok v) :
    readLoc { appendActive bc1 ent with keyDir := kd } e = .ok v := by
  rw [readLoc] at hr ⊢
  have hids : ({ appendActive bc1 ent with keyDir := kd } : Bitcask).activeFile.id =
      bc1.activeFile.id := rfl
  rw [hids]
  have hros : ({ appendActive bc1 ent with keyDir := kd } : Bitcask).readOnlyFiles =
      bc1.readOnlyFiles := rfl
  rw [hros]
  by_cases hid : e.fileID = bc1.activeFile.id
  · rw [if_pos hid] at hr ⊢
    dsimp only at hr ⊢
    refine read_extend bc1.activeFile _ (bc1.activeFile.buffer ++ encodeEntry ent) rfl _ _ v hr
  · rw [if_neg hid] at hr ⊢
    exact hr

theorem readLoc_rotate (bc : Bitcask) (h : IdInv bc) (e : KeyDirEntry) (v : Bytes)
    (hr : readLoc bc e = .ok v) : readLoc bc.rotateActiveFile e = .ok v := by
  rw [rotate_eq bc h]
  rw [readLoc] at hr ⊢
  have hids : ({ bc with readOnlyFiles := bc.readOnlyFiles ++ [bc.activeFile], activeFile := newLogFile (bc.activeFile.id + 1) } : Bitcask).activeFile.id = bc.activeFile.id + 1 := rfl
  rw [hids]
  have hros : ({ bc with readOnlyFiles := bc.readOnlyFiles ++ [bc.activeFile], activeFile := newLogFile (bc.activeFile.id + 1) } : Bitcask).readOnlyFiles = bc.readOnlyFiles ++ [bc.activeFile] := rfl
  rw [hros]
  by_cases hid : e.fileID = bc.activeFile.id
  · rw [if_pos hid] at hr
    dsimp only at hr
    have hne : ¬ e.fileID = bc.activeFile.id + 1 := by omega
    rw [if_neg hne]
    have hlk : lfLookup (bc.readOnlyFiles ++ [bc.activeFile]) e.fileID = some bc.activeFile := by
      rw [hid]
      exact lfLookup_append_last _ _ (fun g hg => Nat.ne_of_lt (sealed_lt_active bc h g hg))
    rw [hlk]
    exact hr
  · rw [if_neg hid] at hr
    cases hlk : lfLookup bc.readOnlyFiles e.fileID with
    | none =>
      rw [hlk] at hr
      exact absurd hr (by simp)
    | some f =>
      rw [hlk] at hr
      obtain ⟨hmem, hfid⟩ := lfLookup_some_mem _ _ _ hlk
      have hlt : f.id < bc.activeFile.id := sealed_lt_active bc h f hmem
      have hne : ¬ e.fileID = bc.activeFile.id + 1 := by omega
      rw [if_neg hne, lfLookup_append_left _ _ _ _ hlk]
      exact hr

theorem IdInv_rotate (bc : Bitcask) (h : IdInv bc) : IdInv bc.rotateActiveFile := by
  rw [rotate_eq bc h]
  obtain ⟨hs, hbuf, hsz, hro, hid1⟩ := h
  have hs2 : strictSorted (bc.readOnlyFiles.map (·.id) ++ [bc.activeFile.id]) = true := by
    rw [allFiles, List.map_append] at hs
    exact hs
  refine ⟨?_, ?_, ?_, rfl, ?_⟩
  · have hlt : ∀ x ∈ bc.readOnlyFiles.map (·.id) ++ [bc.activeFile.id], x < bc.activeFile.id + 1 := by
      intro x hx
      rcases List.mem_append.mp hx with hx1 | hx1
      · have := strictSorted_last_gt _ _ hs2 x hx1
        omega
      · rw [List.mem_singleton.mp hx1]
        omega
    have h3 := strictSorted_append_last _ _ hs2 hlt
    show strictSorted (((bc.readOnlyFiles ++ [bc.activeFile]) ++ [newLogFile (bc.activeFile.id + 1)]).map (·.id)) = true
    rw [List.map_append, List.map_append]
    exact h3
  · intro f hf
    rw [allFiles] at hf
    dsimp only at hf
    rcases List.mem_append.mp hf with hf1 | hf1
    · exact hbuf f hf1
    · rw [List.mem_singleton.mp hf1]
      rfl
  · intro f hf
    rw [allFiles] at hf
    dsimp only at hf
    rcases List.mem_append.mp hf with hf1 | hf1
    · exact hsz f hf1
    · rw [List.mem_singleton.mp hf1]
      rfl
  · show 1 ≤ bc.activeFile.id + 1
    omega

theorem EngInv_rotate (ops : List Op) (bc : Bitcask) (inv : EngInv ops bc) :
    EngInv ops bc.rotateActiveFile := by
  have hidi := inv.idi
  refine ⟨IdInv_rotate bc hidi, ?_, inv.nodup, ?_, inv.liveNone, ?_⟩
  · rw [rotate_eq bc hidi]
    intro f hf
    rw [allFiles] at hf
    dsimp only at hf
    rcases List.mem_append.mp hf with hf1 | hf1
    · exact inv.streams f hf1
    · rw [List.mem_singleton.mp hf1]
      exact ⟨[], rfl, by intro e he; simp at he⟩
  · intro k e h
    obtain ⟨v, h1, h2⟩ := inv.readOk k e h
    exact ⟨v, h1, readLoc_rotate bc hidi e v h2⟩
  · intro hne
    obtain ⟨d, hd, hk⟩ := inv.replayEq hne
    have hcd : bc.rotateActiveFile.closeDisk = bc.closeDisk ++ [(bc.activeFile.id + 1, [])] := by
      rw [rotate_eq bc hidi, Bitcask.closeDisk, Bitcask.closeDisk]
      dsimp only
      rw [List.map_append]
      simp [newLogFile]
    rw [hcd, replayDisk_snocEmpty]
    exact ⟨d, hd, hk⟩

theorem EngInv_putAppend (ops : List Op) (bc1 : Bitcask) (inv : EngInv ops bc1)
    (ts : Nat) (k : Key) (v : Bytes)
    (hk : k.length < 4294967296) (hv : v.length < 4294967296) :
    EngInv (ops ++ [Op.put ts k v])
      { appendActive bc1 (mkEntry ts k v) with
        keyDir := (kdInsert bc1.keyDir k
          ⟨bc1.activeFile.id, (mkEntry ts k v).valueSize,
           bc1.activeFile.size + 12 + k.length, (mkEntry ts k v).timestamp⟩) } := by
  obtain ⟨hs, hbuf, hsz, hro, hid1⟩ := inv.idi
  have hbufA : bc1.activeFile.buffer = [] := hbuf _ (active_mem_allFiles bc1)
  have hszA : bc1.activeFile.size = bc1.activeFile.fileData.length :=
    hsz _ (active_mem_allFiles bc1)
  have hacc : bc1.activeFile.size = bc1.activeFile.fileData.length + bc1.activeFile.buffer.length := by
    rw [hszA, hbufA]
    simp
  obtain ⟨recsA, hcA, hwfA⟩ := inv.streams bc1.activeFile (active_mem_allFiles bc1)
  have hwfe : WFEntry (mkEntry ts k v) = true := WFEntry_mkEntry ts k v hk hv
  refine ⟨⟨?_, ?_, ?_, hro, hid1⟩, ?_, ?_, ?_, ?_, ?_⟩
  · have hmap : (allFiles { appendActive bc1 (mkEntry ts k v) with
        keyDir := (kdInsert bc1.keyDir k
          ⟨bc1.activeFile.id, (mkEntry ts k v).valueSize,
           bc1.activeFile.size + 12 + k.length, (mkEntry ts k v).timestamp⟩) }).map (·.id) =
        (allFiles bc1).map (·.id) := by
      rw [allFiles, allFiles, List.map_append, List.map_append]
      rfl
    rw [hmap]
    exact hs
  · intro f hf
    rw [allFiles] at hf
    dsimp only at hf
    rcases List.mem_append.mp hf with hf1 | hf1
    · exact hbuf f (sealed_mem_allFiles bc1 f hf1)
    · rw [List.mem_singleton.mp hf1]
      rfl
  · intro f hf
    rw [allFiles] at hf
    dsimp only at hf
    rcases List.mem_append.mp hf with hf1 | hf1
    · exact hsz f (sealed_mem_allFiles bc1 f hf1)
    · rw [List.mem_singleton.mp hf1]
      show bc1.activeFile.size + (12 + k.length + v.length) =
        (bc1.activeFile.fileData ++ (bc1.activeFile.buffer ++ encodeEntry (mkEntry ts k v))).length
      rw [List.length_append, List.length_append, encodeEntry_length, hbufA]
      show _ = bc1.activeFile.fileData.length + (0 + (12 + k.length + v.length))
      omega
  · intro f hf
    rw [allFiles] at hf
    dsimp only at hf
    rcases List.mem_append.mp hf with hf1 | hf1
    · exact inv.streams f (sealed_mem_allFiles bc1 f hf1)
    · rw [List.mem_singleton.mp hf1]
      refine ⟨recsA ++ [mkEntry ts k v], ?_, ?_⟩
      · show bc1.activeFile.fileData ++ (bc1.activeFile.buffer ++ encodeEntry (mkEntry ts k v)) =
          encodeList (recsA ++ [mkEntry ts k v])
        rw [hbufA, List.nil_append, hcA, encodeList_append, encodeList, encodeList, List.append_nil]
      · intro x hx
        rcases List.mem_append.mp hx with hx1 | hx1
        · exact hwfA x hx1
        · rw [List.mem_singleton.mp hx1]
          exact hwfe
  · exact kdInsert_nodup _ _ _ inv.nodup
  · intro k' e' h'
    have h'' : kdLookup (kdInsert bc1.keyDir k
        ⟨bc1.activeFile.id, (mkEntry ts k v).valueSize,
         bc1.activeFile.size + 12 + k.length, (mkEntry ts k v).timestamp⟩) k' = some e' := h'
    rw [kdLookup_insert] at h''
    by_cases hkk : k' = k
    · rw [if_pos hkk] at h''
      injection h'' with h3
      subst hkk
      refine ⟨v, ?_, ?_⟩
      · rw [liveSpec_append]
        show (if k' = k' then some v else liveSpec ops k') = some v
        rw [if_pos rfl]
      · have hg := get_appendActive bc1 ts k' v hacc hv
        rw [Bitcask.get] at hg
        have h1 : kdLookup (Bitcask.keyDir { appendActive bc1 (mkEntry ts k' v) with
            keyDir := (kdInsert bc1.keyDir k'
              ⟨bc1.activeFile.id, (mkEntry ts k' v).valueSize,
               bc1.activeFile.size + 12 + k'.length, (mkEntry ts k' v).timestamp⟩) }) k' =
            some ⟨bc1.activeFile.id, (mkEntry ts k' v).valueSize,
              bc1.activeFile.size + 12 + k'.length, (mkEntry ts k' v).timestamp⟩ := by
          show kdLookup (kdInsert bc1.keyDir k' _) k' = _
          rw [kdLookup_insert, if_pos rfl]
        rw [h1] at hg
        dsimp only at hg
        rw [← h3]
        exact hg
    · rw [if_neg hkk] at h''
      obtain ⟨v', hl, hr⟩ := inv.readOk k' e' h''
      refine ⟨v', ?_, readLoc_appendActive bc1 (mkEntry ts k v) _ e' v' hr⟩
      rw [liveSpec_append]
      show (if k' = k then some v else liveSpec ops k') = some v'
      rw [if_neg hkk]
      exact hl
  · intro k' h'
    have h'' : kdLookup (kdInsert bc1.keyDir k
        ⟨bc1.activeFile.id, (mkEntry ts k v).valueSize,
         bc1.activeFile.size + 12 + k.length, (mkEntry ts k v).timestamp⟩) k' = none := h'
    rw [kdLookup_insert] at h''
    by_cases hkk : k' = k
    · rw [if_pos hkk] at h''
      exact absurd h'' (by simp)
    · rw [if_neg hkk] at h''
      rw [liveSpec_append]
      show (if k' = k then some v else liveSpec ops k') = none
      rw [if_neg hkk]
      exact inv.liveNone k' h''
  · intro hne
    have hne1 : noEmptyPutOp (Op.put ts k v) = true :=
      hne _ (List.mem_append_right _ (List.mem_singleton_self _))
    have hneOld : NoEmptyPut ops := fun o ho => hne o (List.mem_append_left _ ho)
    obtain ⟨d, hd, hdk⟩ := inv.replayEq hneOld
    have hvne : v ≠ [] := by
      simpa [noEmptyPutOp] using hne1
    have hvpos : 0 < v.length := List.length_pos.mpr hvne
    have hcd : Bitcask.closeDisk { appendActive bc1 (mkEntry ts k v) with
        keyDir := (kdInsert bc1.keyDir k
          ⟨bc1.activeFile.id, (mkEntry ts k v).valueSize,
           bc1.activeFile.size + 12 + k.length, (mkEntry ts k v).timestamp⟩) } =
        bc1.readOnlyFiles.map (fun f => (f.id, f.fileData ++ f.buffer)) ++
          [(bc1.activeFile.id,
            (bc1.activeFile.fileData ++ bc1.activeFile.buffer) ++ encodeEntry (mkEntry ts k v))] := by
      show bc1.readOnlyFiles.map (fun f => (f.id, f.fileData ++ f.buffer)) ++ [(bc1.activeFile.id, (bc1.activeFile.fileData ++ (bc1.activeFile.buffer ++ encodeEntry (mkEntry ts k v))) ++ [])] = bc1.readOnlyFiles.map (fun f => (f.id, f.fileData ++ f.buffer)) ++ [(bc1.activeFile.id, (bc1.activeFile.fileData ++ bc1.activeFile.buffer) ++ encodeEntry (mkEntry ts k v))]
      rw [List.append_nil, ← List.append_assoc]
    have hcEq : bc1.activeFile.fileData ++ bc1.activeFile.buffer = encodeList recsA := by
      rw [hbufA, List.append_nil, hcA]
    have hdOld : replayDisk (bc1.readOnlyFiles.map (fun f => (f.id, f.fileData ++ f.buffer)) ++
        [(bc1.activeFile.id, bc1.activeFile.fileData ++ bc1.activeFile.buffer)]) [] = .ok d := by
      rw [← Bitcask.closeDisk]
      exact hd
    have hsnoc := replayDisk_snocFile _ bc1.activeFile.id
      (bc1.activeFile.fileData ++ bc1.activeFile.buffer) recsA (mkEntry ts k v) [] d
      hcEq hwfA hwfe hdOld
    rw [hcd]
    refine ⟨applyRec bc1.activeFile.id (bc1.activeFile.fileData ++ bc1.activeFile.buffer).length d
      (mkEntry ts k v), hsnoc, ?_⟩
    intro k'
    rw [kdLookup_applyRec]
    have hkey : (mkEntry ts k v).key = k := rfl
    have hvs : (mkEntry ts k v).valueSize = v.length := by
      rw [mkEntry]
      exact Nat.mod_eq_of_lt hv
    have hvs0 : ¬ (mkEntry ts k v).valueSize = 0 := by
      rw [hvs]
      omega
    have hks : (mkEntry ts k v).keySize = k.length := by
      rw [mkEntry]
      exact Nat.mod_eq_of_lt hk
    have hclen : (bc1.activeFile.fileData ++ bc1.activeFile.buffer).length = bc1.activeFile.size := by
      rw [List.length_append, hbufA, hszA]
      simp
    show _ = kdLookup (kdInsert bc1.keyDir k
      ⟨bc1.activeFile.id, (mkEntry ts k v).valueSize,
       bc1.activeFile.size + 12 + k.length, (mkEntry ts k v).timestamp⟩) k'
    rw [kdLookup_insert, hkey]
    by_cases hkk : k' = k
    · rw [if_pos hkk, if_pos hkk, if_neg hvs0, hclen, hks]
    · rw [if_neg hkk, if_neg hkk]
      exact hdk k'

theorem IdInv_appendActive (bc1 : Bitcask) (h : IdInv bc1) (ent : LogEntry) (kd : KeyDir) :
    IdInv { appendActive bc1 ent with keyDir := kd } := by
  obtain ⟨hs, hbuf, hsz, hro, hid1⟩ := h
  refine ⟨?_, ?_, ?_, hro, hid1⟩
  · have hmap : (allFiles { appendActive bc1 ent with keyDir := kd }).map (·.id) =
        (allFiles bc1).map (·.id) := by
      rw [allFiles, allFiles, List.map_append, List.map_append]
      rfl
    rw [hmap]
    exact hs
  · intro f hf
    rw [allFiles] at hf
    dsimp only at hf
    rcases List.mem_append.mp hf with hf1 | hf1
    · exact hbuf f (sealed_mem_allFiles bc1 f hf1)
    · rw [List.mem_singleton.mp hf1]
      rfl
  · intro f hf
    rw [allFiles] at hf
    dsimp only at hf
    rcases List.mem_append.mp hf with hf1 | hf1
    · exact hsz f (sealed_mem_allFiles bc1 f hf1)
    · rw [List.mem_singleton.mp hf1]
      show bc1.activeFile.size + (12 + ent.key.length + ent.value.length) =
        (bc1.activeFile.fileData ++ (bc1.activeFile.buffer ++ encodeEntry ent)).length
      rw [List.length_append, List.length_append, encodeEntry_length,
        hbuf _ (active_mem_allFiles bc1), hsz _ (active_mem_allFiles bc1)]
      show _ = bc1.activeFile.fileData.length + (0 + (12 + ent.key.length + ent.value.length))
      omega

theorem streams_appendActive (bc1 : Bitcask) (h : IdInv bc1)
    (hstr : ∀ f ∈ allFiles bc1, ∃ recs, FileRec f recs)
    (ent : LogEntry) (hwfe : WFEntry ent = true) (kd : KeyDir) :
    ∀ f ∈ allFiles { appendActive bc1 ent with keyDir := kd }, ∃ recs, FileRec f recs := by
  intro f hf
  rw [allFiles] at hf
  dsimp only at hf
  rcases List.mem_append.mp hf with hf1 | hf1
  · exact hstr f (sealed_mem_allFiles bc1 f hf1)
  · rw [List.mem_singleton.mp hf1]
    obtain ⟨recsA, hcA, hwfA⟩ := hstr bc1.activeFile (active_mem_allFiles bc1)
    refine ⟨recsA ++ [ent], ?_, ?_⟩
    · show bc1.activeFile.fileData ++ (bc1.activeFile.buffer ++ encodeEntry ent) =
        encodeList (recsA ++ [ent])
      rw [h.2.1 _ (active_mem_allFiles bc1), List.nil_append, hcA, encodeList_append,
        encodeList, encodeList, List.append_nil]
    · intro x hx
      rcases List.mem_append.mp hx with hx1 | hx1
      · exact hwfA x hx1
      · rw [List.mem_singleton.mp hx1]
        exact hwfe

theorem EngInv_deleteNotFound (ops : List Op) (bc : Bitcask) (inv : EngInv ops bc)
    (ts : Nat) (k : Key) (hnf : kdLookup bc.keyDir k = none) :
    EngInv (ops ++ [Op.del ts k]) bc := by
  refine ⟨inv.idi, inv.streams, inv.nodup, ?_, ?_, ?_⟩
  · intro k' e' h'
    obtain ⟨v', hl, hr⟩ := inv.readOk k' e' h'
    have hkk : ¬ k' = k := by
      intro hh
      rw [hh, hnf] at h'
      exact Option.noConfusion h'
    refine ⟨v', ?_, hr⟩
    rw [liveSpec_append]
    show (if k' = k then none else liveSpec ops k') = some v'
    rw [if_neg hkk]
    exact hl
  · intro k' h'
    rw [liveSpec_append]
    show (if k' = k then none else liveSpec ops k') = none
    by_cases hkk : k' = k
    · rw [if_pos hkk]
    · rw [if_neg hkk]
      exact inv.liveNone k' h'
  · intro hne
    exact inv.replayEq (fun o ho => hne o (List.mem_append_left _ ho))

theorem EngInv_deleteAppend (ops : List Op) (bc : Bitcask) (inv : EngInv ops bc)
    (ts : Nat) (k : Key) (hk : k.length < 4294967296) :
    EngInv (ops ++ [Op.del ts k])
      { appendActive bc (mkEntry ts k []) with keyDir := kdRemove bc.keyDir k } := by
  have hwfe : WFEntry (mkEntry ts k []) = true := WFEntry_mkEntry ts k [] hk (by decide)
  obtain ⟨hs, hbuf, hsz, hro, hid1⟩ := inv.idi
  have hbufA : bc.activeFile.buffer = [] := hbuf _ (active_mem_allFiles bc)
  have hszA : bc.activeFile.size = bc.activeFile.fileData.length :=
    hsz _ (active_mem_allFiles bc)
  obtain ⟨recsA, hcA, hwfA⟩ := inv.streams bc.activeFile (active_mem_allFiles bc)
  refine ⟨IdInv_appendActive bc inv.idi (mkEntry ts k []) _,
    streams_appendActive bc inv.idi inv.streams (mkEntry ts k []) hwfe _,
    kdRemove_nodup _ _ inv.nodup, ?_, ?_, ?_⟩
  · intro k' e' h'
    have h'' : kdLookup (kdRemove bc.keyDir k) k' = some e' := h'
    rw [kdLookup_remove] at h''
    by_cases hkk : k' = k
    · rw [if_pos hkk] at h''
      exact absurd h'' (by simp)
    · rw [if_neg hkk] at h''
      obtain ⟨v', hl, hr⟩ := inv.readOk k' e' h''
      refine ⟨v', ?_, readLoc_appendActive bc (mkEntry ts k []) _ e' v' hr⟩
      rw [liveSpec_append]
      show (if k' = k then none else liveSpec ops k') = some v'
      rw [if_neg hkk]
      exact hl
  · intro k' h'
    rw [liveSpec_append]
    show (if k' = k then none else liveSpec ops k') = none
    by_cases hkk : k' = k
    · rw [if_pos hkk]
    · rw [if_neg hkk]
      have h'' : kdLookup (kdRemove bc.keyDir k) k' = none := h'
      rw [kdLookup_remove, if_neg hkk] at h''
      exact inv.liveNone k' h''
  · intro hne
    have hneOld : NoEmptyPut ops := fun o ho => hne o (List.mem_append_left _ ho)
    obtain ⟨d, hd, hdk⟩ := inv.replayEq hneOld
    have hcd : Bitcask.closeDisk { appendActive bc (mkEntry ts k []) with keyDir := kdRemove bc.keyDir k } =
        bc.readOnlyFiles.map (fun f => (f.id, f.fileData ++ f.buffer)) ++
          [(bc.activeFile.id,
            (bc.activeFile.fileData ++ bc.activeFile.buffer) ++ encodeEntry (mkEntry ts k []))] := by
      show bc.readOnlyFiles.map (fun f => (f.id, f.fileData ++ f.buffer)) ++ [(bc.activeFile.id, (bc.activeFile.fileData ++ (bc.activeFile.buffer ++ encodeEntry (mkEntry ts k []))) ++ [])] = bc.readOnlyFiles.map (fun f => (f.id, f.fileData ++ f.buffer)) ++ [(bc.activeFile.id, (bc.activeFile.fileData ++ bc.activeFile.buffer) ++ encodeEntry (mkEntry ts k []))]
      rw [List.append_nil, ← List.append_assoc]
    have hcEq : bc.activeFile.fileData ++ bc.activeFile.buffer = encodeList recsA := by
      rw [hbufA, List.append_nil, hcA]
    have hdOld : replayDisk (bc.readOnlyFiles.map (fun f => (f.id, f.fileData ++ f.buffer)) ++
        [(bc.activeFile.id, bc.activeFile.fileData ++ bc.activeFile.buffer)]) [] = .ok d := by
      rw [← Bitcask.closeDisk]
      exact hd
    have hsnoc := replayDisk_snocFile _ bc.activeFile.id
      (bc.activeFile.fileData ++ bc.activeFile.buffer) recsA (mkEntry ts k []) [] d
      hcEq hwfA hwfe hdOld
    rw [hcd]
    refine ⟨applyRec bc.activeFile.id (bc.activeFile.fileData ++ bc.activeFile.buffer).length d
      (mkEntry ts k []), hsnoc, ?_⟩
    intro k'
    rw [kdLookup_applyRec]
    have hkey : (mkEntry ts k []).key = k := rfl
    have hvs0 : (mkEntry ts k []).valueSize = 0 := rfl
    show _ = kdLookup (kdRemove bc.keyDir k) k'
    rw [kdLookup_remove, hkey, hvs0]
    by_cases hkk : k' = k
    · rw [if_pos hkk, if_pos hkk, if_pos rfl]
    · rw [if_neg hkk, if_neg hkk]
      exact hdk k'

theorem EngInv_step (ops : List Op) (bc : Bitcask) (inv : EngInv ops bc) (op : Op)
    (hb : opBounded op = true) :
    EngInv (ops ++ [op]) (stepOp bc op) := by
  cases op with
  | put ts k v =>
    simp only [opBounded, Bool.and_eq_true, decide_eq_true_eq] at hb
    rw [stepOp]
    by_cases hsz : bc.activeFile.size ≥ bc.config.maxFileSize
    · rw [put_eq_rotate bc ts k v hsz]
      exact EngInv_putAppend _ _ (EngInv_rotate ops bc inv) ts k v hb.1 hb.2
    · rw [put_eq_noRotate bc ts k v inv.idi.2.2.2.1 hsz]
      exact EngInv_putAppend _ _ inv ts k v hb.1 hb.2
  | del ts k =>
    simp only [opBounded, decide_eq_true_eq] at hb
    rw [stepOp]
    cases hl : kdLookup bc.keyDir k with
    | none =>
      rw [delete_eq_notFound bc ts k hl]
      exact EngInv_deleteNotFound ops bc inv ts k hl
    | some e₀ =>
      rw [delete_eq_found bc ts k e₀ hl inv.idi.2.2.2.1]
      exact EngInv_deleteAppend ops bc inv ts k hb

theorem EngInv_run (cfg : Config) (ops : List Op) (hb : Bounded ops) :
    EngInv ops (run (freshBitcask cfg) ops) := by
  revert hb
  induction ops using List.reverseRecOn with
  | nil =>
    intro _
    exact EngInv_fresh cfg
  | append_singleton l op ih =>
    intro hb
    rw [run_append]
    exact EngInv_step l _ (ih (fun o ho => hb o (List.mem_append_left _ ho))) op
      (hb op (List.mem_append_right _ (List.mem_singleton_self op)))

/-! ### Reopening: resolution of old entries in the recovered state -/

theorem closeDisk_ids (bc : Bitcask) :
    bc.closeDisk.map (·.1) = (allFiles bc).map (·.id) := by
  rw [Bitcask.closeDisk, allFiles, List.map_append, List.map_append, List.map_map]
  rfl

theorem closeDisk_roFiles (bc : Bitcask) :
    bc.closeDisk.map (fun p => roFile p.1 p.2) =
      bc.readOnlyFiles.map (fun f => roFile f.id (f.fileData ++ f.buffer)) ++
        [roFile bc.activeFile.id (bc.activeFile.fileData ++ bc.activeFile.buffer)] := by
  rw [Bitcask.closeDisk, List.map_append, List.map_map]
  rfl

theorem maxId_reopen (bc : Bitcask) (h : IdInv bc) :
    maxId (bc.closeDisk.map (fun p => roFile p.1 p.2)) = bc.activeFile.id := by
  rw [closeDisk_roFiles]
  have hstep : maxId (bc.readOnlyFiles.map (fun f => roFile f.id (f.fileData ++ f.buffer)) ++
      [roFile bc.activeFile.id (bc.activeFile.fileData ++ bc.activeFile.buffer)]) =
      (roFile bc.activeFile.id (bc.activeFile.fileData ++ bc.activeFile.buffer)).id := by
    apply maxId_append_last
    intro g hg
    rw [List.mem_map] at hg
    obtain ⟨f, hf, rfl⟩ := hg
    exact le_of_lt (sealed_lt_active bc h f hf)
  rw [hstep]
  rfl

theorem roFile_id (i : Nat) (c : Bytes) : (roFile i c).id = i := rfl

theorem lfLookup_map_roFile (ro : List LogFile) (i : Nat) (f : LogFile)
    (h : lfLookup ro i = some f) :
    lfLookup (ro.map (fun g => roFile g.id (g.fileData ++ g.buffer))) i =
      some (roFile f.id (f.fileData ++ f.buffer)) := by
  induction ro with
  | nil => simp [lfLookup] at h
  | cons g rest ih =>
    rw [lfLookup] at h
    rw [List.map_cons, lfLookup, roFile_id]
    by_cases hg : g.id = i
    · rw [if_pos hg] at h
      injection h with h1
      subst h1
      rw [if_pos hg]
    · rw [if_neg hg] at h
      rw [if_neg hg]
      exact ih h

theorem readLoc_reopen (bc : Bitcask) (hidi : IdInv bc) (kd : KeyDir) (cfg2 : Config)
    (e : KeyDirEntry) (v : Bytes) (hr : readLoc bc e = .ok v) :
    readLoc ⟨kd, newLogFile (maxId (bc.closeDisk.map (fun p => roFile p.1 p.2)) + 1),
             bc.closeDisk.map (fun p => roFile p.1 p.2), cfg2⟩ e = .ok v := by
  rw [maxId_reopen bc hidi, closeDisk_roFiles]
  rw [readLoc] at hr ⊢
  have hact : (⟨kd, newLogFile (bc.activeFile.id + 1), bc.readOnlyFiles.map (fun f => roFile f.id (f.fileData ++ f.buffer)) ++ [roFile bc.activeFile.id (bc.activeFile.fileData ++ bc.activeFile.buffer)], cfg2⟩ : Bitcask).activeFile.id = bc.activeFile.id + 1 := rfl
  rw [hact]
  have hros : (⟨kd, newLogFile (bc.activeFile.id + 1), bc.readOnlyFiles.map (fun f => roFile f.id (f.fileData ++ f.buffer)) ++ [roFile bc.activeFile.id (bc.activeFile.fileData ++ bc.activeFile.buffer)], cfg2⟩ : Bitcask).readOnlyFiles = bc.readOnlyFiles.map (fun f => roFile f.id (f.fileData ++ f.buffer)) ++ [roFile bc.activeFile.id (bc.activeFile.fileData ++ bc.activeFile.buffer)] := rfl
  rw [hros]
  by_cases hid : e.fileID = bc.activeFile.id
  · rw [if_pos hid] at hr
    dsimp only at hr
    have hne2 : ¬ e.fileID = bc.activeFile.id + 1 := by omega
    rw [if_neg hne2]
    have hlk : lfLookup (bc.readOnlyFiles.map (fun f => roFile f.id (f.fileData ++ f.buffer)) ++
        [roFile bc.activeFile.id (bc.activeFile.fileData ++ bc.activeFile.buffer)]) e.fileID =
        some (roFile bc.activeFile.id (bc.activeFile.fileData ++ bc.activeFile.buffer)) := by
      rw [hid]
      apply lfLookup_append_last
      intro g hg
      rw [List.mem_map] at hg
      obtain ⟨f, hf, rfl⟩ := hg
      exact Nat.ne_of_lt (sealed_lt_active bc hidi f hf)
    rw [hlk]
    exact read_extend bc.activeFile _ bc.activeFile.buffer rfl _ _ v hr
  · rw [if_neg hid] at hr
    cases hlk : lfLookup bc.readOnlyFiles e.fileID with
    | none =>
      rw [hlk] at hr
      exact absurd hr (by simp)
    | some f =>
      rw [hlk] at hr
      obtain ⟨hmem, hfid⟩ := lfLookup_some_mem _ _ _ hlk
      have hlt : f.id < bc.activeFile.id := sealed_lt_active bc hidi f hmem
      have hne2 : ¬ e.fileID = bc.activeFile.id + 1 := by omega
      rw [if_neg hne2]
      rw [lfLookup_append_left _ _ _ _ (lfLookup_map_roFile bc.readOnlyFiles e.fileID f hlk)]
      exact read_extend f _ f.buffer rfl _ _ v hr

theorem closeDisk_eq_map (bc : Bitcask) :
    bc.closeDisk = (allFiles bc).map (fun f => (f.id, f.fileData ++ f.buffer)) := by
  rw [Bitcask.closeDisk, allFiles, List.map_append]
  rfl

theorem replayDisk_files_ok (files : List LogFile) :
    ∀ (d : KeyDir), (∀ f ∈ files, f.buffer = []) → (∀ f ∈ files, ∃ recs, FileRec f recs) →
      ∃ d', replayDisk (files.map (fun f => (f.id, f.fileData ++ f.buffer))) d = .ok d' := by
  induction files with
  | nil => exact fun d _ _ => ⟨d, rfl⟩
  | cons f rest ih =>
    intro d hbuf hstr
    obtain ⟨recs, hc, hwf⟩ := hstr f (List.mem_cons_self f rest)
    rw [List.map_cons, replayDisk]
    have hcf : f.fileData ++ f.buffer = encodeList recs := by
      rw [hbuf f (List.mem_cons_self f rest), List.append_nil, hc]
    rw [replayFuel_top _ _ recs d hcf hwf]
    exact ih _ (fun g hg => hbuf g (List.mem_cons_of_mem f hg))
      (fun g hg => hstr g (List.mem_cons_of_mem f hg))

theorem replayDisk_closeDisk_ok (bc : Bitcask)
    (hbuf : ∀ f ∈ allFiles bc, f.buffer = [])
    (hstr : ∀ f ∈ allFiles bc, ∃ recs, FileRec f recs) :
    ∃ d, replayDisk bc.closeDisk [] = .ok d := by
  rw [closeDisk_eq_map]
  exact replayDisk_files_ok (allFiles bc) [] hbuf hstr

/-- Replaying the directory after appending one record to the active file
applies exactly that record on top of the prior replay result. -/
theorem replay_append_state (bc1 : Bitcask) (hidi : IdInv bc1)
    (hstr : ∀ f ∈ allFiles bc1, ∃ recs, FileRec f recs)
    (ent : LogEntry) (hwfe : WFEntry ent = true) (kd : KeyDir) (D : KeyDir)
    (hD : replayDisk bc1.closeDisk [] = .ok D) :
    replayDisk (Bitcask.closeDisk { appendActive bc1 ent with keyDir := kd }) [] =
      .ok (applyRec bc1.activeFile.id (bc1.activeFile.fileData ++ bc1.activeFile.buffer).length D ent) := by
  have hbufA : bc1.activeFile.buffer = [] := hidi.2.1 _ (active_mem_allFiles bc1)
  obtain ⟨recsA, hcA, hwfA⟩ := hstr bc1.activeFile (active_mem_allFiles bc1)
  have hcd : Bitcask.closeDisk { appendActive bc1 ent with keyDir := kd } =
      bc1.readOnlyFiles.map (fun f => (f.id, f.fileData ++ f.buffer)) ++
        [(bc1.activeFile.id,
          (bc1.activeFile.fileData ++ bc1.activeFile.buffer) ++ encodeEntry ent)] := by
    show bc1.readOnlyFiles.map (fun f => (f.id, f.fileData ++ f.buffer)) ++ [(bc1.activeFile.id, (bc1.activeFile.fileData ++ (bc1.activeFile.buffer ++ encodeEntry ent)) ++ [])] = bc1.readOnlyFiles.map (fun f => (f.id, f.fileData ++ f.buffer)) ++ [(bc1.activeFile.id, (bc1.activeFile.fileData ++ bc1.activeFile.buffer) ++ encodeEntry ent)]
    rw [List.append_nil, ← List.append_assoc]
  have hcEq : bc1.activeFile.fileData ++ bc1.activeFile.buffer = encodeList recsA := by
    rw [hbufA, List.append_nil, hcA]
  have hdOld : replayDisk (bc1.readOnlyFiles.map (fun f => (f.id, f.fileData ++ f.buffer)) ++
      [(bc1.activeFile.id, bc1.activeFile.fileData ++ bc1.activeFile.buffer)]) [] = .ok D := by
    rw [← Bitcask.closeDisk]
    exact hD
  rw [hcd]
  exact replayDisk_snocFile _ bc1.activeFile.id
    (bc1.activeFile.fileData ++ bc1.activeFile.buffer) recsA ent [] D hcEq hwfA hwfe hdOld

theorem get_mk (D : KeyDir) (af : LogFile) (ro : List LogFile) (cfg : Config) (k : Key) :
    Bitcask.get ⟨D, af, ro, cfg⟩ k =
      match kdLookup D k with
      | none => .error "key not found"
      | some e => readLoc ⟨D, af, ro, cfg⟩ e := rfl

/-- C5 (claim theorem): in every state reachable by a sequence of engine
operations from a fresh open (with keys and values fitting the `uint32` length
fields), the Key Directory has at most one entry per key, and every live entry
resolves to readable bytes equal to the most recently put value of its key. -/
theorem c5_keydir_invariant (cfg : Config) (ops : List Op) (hb : Bounded ops) :
    (((run (freshBitcask cfg) ops).keyDir.map (·.1)).Nodup) ∧
    (∀ k e, kdLookup (run (freshBitcask cfg) ops).keyDir k = some e →
      ∃ v, liveSpec ops k = some v ∧ readLoc (run (freshBitcask cfg) ops) e = .ok v) := by
  have inv := EngInv_run cfg ops hb
  exact ⟨inv.nodup, inv.readOk⟩

/-- C2 counterexample: a successful put of an empty value followed by a
graceful close and reopen does not preserve the live key set: the key is live
before the close (get returns the empty value) and absent after the reopen,
because the record is the tombstone encoding. -/
theorem c2_counterexample :
    (run (freshBitcask ⟨1000, false⟩) [Op.put 5 [97] []]).keys = [[97]] ∧
    (run (freshBitcask ⟨1000, false⟩) [Op.put 5 [97] []]).get [97] = .ok [] ∧
    (openDisk ⟨1000, false⟩
      (run (freshBitcask ⟨1000, false⟩) [Op.put 5 [97] []]).closeDisk).toOption.map
        Bitcask.keys = some [] := by
  decide

/-- C2 as amended (claim theorem): for every sequence of successful put and
delete operations in which no put stores an empty value (and keys and values
fit the `uint32` length fields), closing gracefully and reopening yields a Key
Directory with exactly the same live key set, and get returns the same value
for every live key. -/
theorem c2_reopen_preserves_live_map (cfg : Config) (ops : List Op)
    (hb : Bounded ops) (hne : NoEmptyPut ops) :
    ∃ bc', openDisk cfg (run (freshBitcask cfg) ops).closeDisk = .ok bc' ∧
      (∀ k, k ∈ bc'.keys ↔ k ∈ (run (freshBitcask cfg) ops).keys) ∧
      (∀ k v, (run (freshBitcask cfg) ops).get k = .ok v → bc'.get k = .ok v) := by
  have inv := EngInv_run cfg ops hb
  obtain ⟨D, hD, hDk⟩ := inv.replayEq hne
  have hsorted : strictSorted ((run (freshBitcask cfg) ops).closeDisk.map (·.1)) = true := by
    rw [closeDisk_ids]
    exact inv.idi.1
  rw [openDisk_spec cfg _ hsorted, hD]
  dsimp only
  refine ⟨_, rfl, ?_, ?_⟩
  · intro k
    show k ∈ D.map (·.1) ↔ k ∈ (run (freshBitcask cfg) ops).keyDir.map (·.1)
    have e1 := kdLookup_eq_none_iff D k
    have e2 := kdLookup_eq_none_iff (run (freshBitcask cfg) ops).keyDir k
    rw [hDk k] at e1
    exact not_iff_not.mp (e1.symm.trans e2)
  · intro k v hget
    rw [Bitcask.get] at hget
    cases hlk : kdLookup (run (freshBitcask cfg) ops).keyDir k with
    | none =>
      rw [hlk] at hget
      exact absurd hget (by simp)
    | some e =>
      rw [hlk] at hget
      dsimp only at hget
      have hlk2 : kdLookup D k = some e := by
        rw [hDk k]
        exact hlk
      rw [get_mk, hlk2]
      dsimp only
      exact readLoc_reopen (run (freshBitcask cfg) ops) inv.idi D cfg e v hget

/-- C2 witness for the amended theorem. -/
theorem c2_witness :
    Bounded [Op.put 1 [1] [2], Op.put 2 [3] [4], Op.del 3 [1], Op.put 4 [3] [9]] ∧
    NoEmptyPut [Op.put 1 [1] [2], Op.put 2 [3] [4], Op.del 3 [1], Op.put 4 [3] [9]] ∧
    ∃ bc', openDisk ⟨1000, false⟩
        (run (freshBitcask ⟨1000, false⟩)
          [Op.put 1 [1] [2], Op.put 2 [3] [4], Op.del 3 [1], Op.put 4 [3] [9]]).closeDisk = .ok bc' ∧
      (∀ k, k ∈ bc'.keys ↔ k ∈ (run (freshBitcask ⟨1000, false⟩)
          [Op.put 1 [1] [2], Op.put 2 [3] [4], Op.del 3 [1], Op.put 4 [3] [9]]).keys) ∧
      (∀ k v, (run (freshBitcask ⟨1000, false⟩)
          [Op.put 1 [1] [2], Op.put 2 [3] [4], Op.del 3 [1], Op.put 4 [3] [9]]).get k = .ok v →
        bc'.get k = .ok v) := by
  refine ⟨by decide, by decide, ?_⟩
  exact c2_reopen_preserves_live_map ⟨1000, false⟩
    [Op.put 1 [1] [2], Op.put 2 [3] [4], Op.del 3 [1], Op.put 4 [3] [9]] (by decide) (by decide)

theorem emptyPut_facts (bc1 : Bitcask) (hidi : IdInv bc1)
    (hstr : ∀ f ∈ allFiles bc1, ∃ recs, FileRec f recs)
    (ts : Nat) (k : Key) (hk : k.length < 4294967296) (cfg2 : Config) :
    (∃ e, kdLookup (Bitcask.keyDir { appendActive bc1 (mkEntry ts k []) with
        keyDir := (kdInsert bc1.keyDir k ⟨bc1.activeFile.id, (mkEntry ts k []).valueSize,
          bc1.activeFile.size + 12 + k.length, (mkEntry ts k []).timestamp⟩) }) k = some e ∧
      e.valueSize = 0) ∧
    Bitcask.get { appendActive bc1 (mkEntry ts k []) with
        keyDir := (kdInsert bc1.keyDir k ⟨bc1.activeFile.id, (mkEntry ts k []).valueSize,
          bc1.activeFile.size + 12 + k.length, (mkEntry ts k []).timestamp⟩) } k = .ok [] ∧
    ∃ bc', openDisk cfg2 (Bitcask.closeDisk { appendActive bc1 (mkEntry ts k []) with
        keyDir := (kdInsert bc1.keyDir k ⟨bc1.activeFile.id, (mkEntry ts k []).valueSize,
          bc1.activeFile.size + 12 + k.length, (mkEntry ts k []).timestamp⟩) }) = .ok bc' ∧
      kdLookup bc'.keyDir k = none ∧ bc'.get k = .error "key not found" ∧ k ∉ bc'.keys := by
  have hacc : bc1.activeFile.size =
      bc1.activeFile.fileData.length + bc1.activeFile.buffer.length := by
    rw [hidi.2.2.1 _ (active_mem_allFiles bc1), hidi.2.1 _ (active_mem_allFiles bc1)]
    simp
  refine ⟨⟨⟨bc1.activeFile.id, (mkEntry ts k []).valueSize,
      bc1.activeFile.size + 12 + k.length, (mkEntry ts k []).timestamp⟩, ?_, rfl⟩,
    get_appendActive bc1 ts k [] hacc (by decide), ?_⟩
  · show kdLookup (kdInsert bc1.keyDir k _) k = _
    rw [kdLookup_insert, if_pos rfl]
  · have hwfe : WFEntry (mkEntry ts k []) = true := WFEntry_mkEntry ts k [] hk (by decide)
    obtain ⟨D, hD⟩ := replayDisk_closeDisk_ok bc1 hidi.2.1 hstr
    have hrep := replay_append_state bc1 hidi hstr (mkEntry ts k []) hwfe
      (kdInsert bc1.keyDir k ⟨bc1.activeFile.id, (mkEntry ts k []).valueSize,
        bc1.activeFile.size + 12 + k.length, (mkEntry ts k []).timestamp⟩) D hD
    have hsorted : strictSorted ((Bitcask.closeDisk { appendActive bc1 (mkEntry ts k []) with keyDir := (kdInsert bc1.keyDir k ⟨bc1.activeFile.id, (mkEntry ts k []).valueSize, bc1.activeFile.size + 12 + k.length, (mkEntry ts k []).timestamp⟩) }).map (·.1)) = true := by
      rw [closeDisk_ids]
      exact (IdInv_appendActive bc1 hidi (mkEntry ts k []) _).1
    rw [openDisk_spec cfg2 _ hsorted, hrep]
    dsimp only
    have hnone : kdLookup (applyRec bc1.activeFile.id
        (bc1.activeFile.fileData ++ bc1.activeFile.buffer).length D (mkEntry ts k [])) k = none := by
      rw [kdLookup_applyRec]
      rw [show (mkEntry ts k []).key = k from rfl, if_pos rfl,
        if_pos (show (mkEntry ts k []).valueSize = 0 from rfl)]
    refine ⟨_, rfl, hnone, ?_, ?_⟩
    · rw [get_mk, hnone]
    · exact (kdLookup_eq_none_iff _ _).mp hnone

/-- C9 (claim theorem): a put with a zero-length value appends a record with
value length zero (the tombstone encoding) yet installs a live Key Directory
entry for the key, so a get in the same session succeeds with the empty value;
after a graceful close and reopen, recovery interprets that record as a
tombstone, so the key is absent and get reports not-found. -/
theorem c9_empty_value_put (cfg : Config) (ops : List Op) (hb : Bounded ops)
    (ts : Nat) (k : Key) (hk : k.length < 4294967296) :
    ((run (freshBitcask cfg) ops).put ts k []).2 = none ∧
    (∃ e, kdLookup ((run (freshBitcask cfg) ops).put ts k []).1.keyDir k = some e ∧
      e.valueSize = 0) ∧
    ((run (freshBitcask cfg) ops).put ts k []).1.get k = .ok [] ∧
    ∃ bc', openDisk cfg ((run (freshBitcask cfg) ops).put ts k []).1.closeDisk = .ok bc' ∧
      kdLookup bc'.keyDir k = none ∧ bc'.get k = .error "key not found" ∧ k ∉ bc'.keys := by
  have inv := EngInv_run cfg ops hb
  by_cases hsz : (run (freshBitcask cfg) ops).activeFile.size ≥
      (run (freshBitcask cfg) ops).config.maxFileSize
  · rw [put_eq_rotate _ ts k [] hsz]
    have inv2 := EngInv_rotate ops _ inv
    have hfacts := emptyPut_facts _ inv2.idi inv2.streams ts k hk cfg
    exact ⟨rfl, hfacts.1, hfacts.2.1, hfacts.2.2⟩
  · rw [put_eq_noRotate _ ts k [] inv.idi.2.2.2.1 hsz]
    have hfacts := emptyPut_facts _ inv.idi inv.streams ts k hk cfg
    exact ⟨rfl, hfacts.1, hfacts.2.1, hfacts.2.2⟩

/-- C9 witness. -/
theorem c9_witness :
    Bounded [Op.put 1 [1] [2]] ∧
    ((run (freshBitcask ⟨1000, false⟩) [Op.put 1 [1] [2]]).put 7 [5] []).2 = none ∧
    (∃ e, kdLookup ((run (freshBitcask ⟨1000, false⟩) [Op.put 1 [1] [2]]).put 7 [5] []).1.keyDir
        [5] = some e ∧ e.valueSize = 0) ∧
    ((run (freshBitcask ⟨1000, false⟩) [Op.put 1 [1] [2]]).put 7 [5] []).1.get [5] = .ok [] ∧
    ∃ bc', openDisk ⟨1000, false⟩
        ((run (freshBitcask ⟨1000, false⟩) [Op.put 1 [1] [2]]).put 7 [5] []).1.closeDisk =
        .ok bc' ∧ kdLookup bc'.keyDir [5] = none ∧ bc'.get [5] = .error "key not found" ∧
        [5] ∉ bc'.keys := by
  refine ⟨by decide, ?_⟩
  exact c9_empty_value_put ⟨1000, false⟩ [Op.put 1 [1] [2]] (by decide) 7 [5] (by decide)

/-- C5 witness. -/
theorem c5_witness :
    Bounded [Op.put 1 [1] [2], Op.put 2 [3] [4], Op.del 3 [1], Op.put 4 [3] [9]] ∧
    (((run (freshBitcask ⟨1000, false⟩)
        [Op.put 1 [1] [2], Op.put 2 [3] [4], Op.del 3 [1], Op.put 4 [3] [9]]).keyDir.map
          (·.1)).Nodup) ∧
    kdLookup (run (freshBitcask ⟨1000, false⟩)
        [Op.put 1 [1] [2], Op.put 2 [3] [4], Op.del 3 [1], Op.put 4 [3] [9]]).keyDir [3] =
      some ⟨1, 1, 54, 4⟩ ∧
    (∃ v, liveSpec [Op.put 1 [1] [2], Op.put 2 [3] [4], Op.del 3 [1], Op.put 4 [3] [9]] [3] =
        some v ∧
      readLoc (run (freshBitcask ⟨1000, false⟩)
        [Op.put 1 [1] [2], Op.put 2 [3] [4], Op.del 3 [1], Op.put 4 [3] [9]]) ⟨1, 1, 54, 4⟩ =
        .ok v) := by
  refine ⟨by decide,
    (c5_keydir_invariant ⟨1000, false⟩
      [Op.put 1 [1] [2], Op.put 2 [3] [4], Op.del 3 [1], Op.put 4 [3] [9]] (by decide)).1,
    by decide, ?_⟩
  exact (c5_keydir_invariant ⟨1000, false⟩
    [Op.put 1 [1] [2], Op.put 2 [3] [4], Op.del 3 [1], Op.put 4 [3] [9]] (by decide)).2
    [3] ⟨1, 1, 54, 4⟩ (by decide)

/-! ### Rotation boundary machinery -/

theorem IdInv_step (bc : Bitcask) (h : IdInv bc) (op : Op) : IdInv (stepOp bc op) := by
  cases op with
  | put ts k v =>
    rw [stepOp]
    by_cases hsz : bc.activeFile.size ≥ bc.config.maxFileSize
    · rw [put_eq_rotate bc ts k v hsz]
      exact IdInv_appendActive _ (IdInv_rotate bc h) _ _
    · rw [put_eq_noRotate bc ts k v h.2.2.2.1 hsz]
      exact IdInv_appendActive _ h _ _
  | del ts k =>
    rw [stepOp]
    cases hl : kdLookup bc.keyDir k with
    | none =>
      rw [delete_eq_notFound bc ts k hl]
      exact h
    | some e₀ =>
      rw [delete_eq_found bc ts k e₀ hl h.2.2.2.1]
      exact IdInv_appendActive _ h _ _

theorem sealed_preserved_step (bc : Bitcask) (h : IdInv bc) (op : Op) (i : Nat) (f : LogFile)
    (hlk : lfLookup bc.readOnlyFiles i = some f) :
    lfLookup (stepOp bc op).readOnlyFiles i = some f := by
  cases op with
  | put ts k v =>
    rw [stepOp]
    by_cases hsz : bc.activeFile.size ≥ bc.config.maxFileSize
    · rw [put_eq_rotate bc ts k v hsz]
      exact lfLookup_append_left _ _ _ _ hlk
    · rw [put_eq_noRotate bc ts k v h.2.2.2.1 hsz]
      exact hlk
  | del ts k =>
    rw [stepOp]
    cases hl : kdLookup bc.keyDir k with
    | none =>
      rw [delete_eq_notFound bc ts k hl]
      exact hlk
    | some e₀ =>
      rw [delete_eq_found bc ts k e₀ hl h.2.2.2.1]
      exact hlk

theorem IdInv_sealed_run (ops : List Op) :
    ∀ (bc : Bitcask), IdInv bc →
      IdInv (run bc ops) ∧
      ∀ i f, lfLookup bc.readOnlyFiles i = some f →
        lfLookup (run bc ops).readOnlyFiles i = some f := by
  induction ops with
  | nil => exact fun bc h => ⟨h, fun i f hf => hf⟩
  | cons op rest ih =>
    intro bc h
    have hrw : run bc (op :: rest) = run (stepOp bc op) rest := rfl
    rw [hrw]
    obtain ⟨h1, h2⟩ := ih (stepOp bc op) (IdInv_step bc h op)
    exact ⟨h1, fun i f hf => h2 i f (sealed_preserved_step bc h op i f hf)⟩

/-- C8 (claim theorem): with rotation threshold `maxFileSize`, once the active
segment has reached or passed the threshold, the next put returns successfully
and writes its record into a newly created segment whose id is the previous
maximum segment id plus one (the old active id, which is the maximum of all
segment ids); the previously active segment is sealed into the read-only set
unchanged and receives no further appends for the rest of the engine's
lifetime (its content is intact after any further operation sequence). -/
theorem c8_rotation_boundary (bc : Bitcask) (h : IdInv bc) (ts : Nat) (k : Key) (v : Bytes)
    (hsz : bc.activeFile.size ≥ bc.config.maxFileSize) :
    (bc.put ts k v).2 = none ∧
    bc.activeFile.id = maxId (allFiles bc) ∧
    (bc.put ts k v).1.activeFile.id = bc.activeFile.id + 1 ∧
    (bc.put ts k v).1.activeFile.fileData = encodeEntry (mkEntry ts k v) ∧
    lfLookup (bc.put ts k v).1.readOnlyFiles bc.activeFile.id = some bc.activeFile ∧
    (∀ ops', lfLookup (run (bc.put ts k v).1 ops').readOnlyFiles bc.activeFile.id =
      some bc.activeFile) := by
  have hmax : bc.activeFile.id = maxId (allFiles bc) := by
    rw [allFiles]
    exact (maxId_append_last _ _ (fun g hg => le_of_lt (sealed_lt_active bc h g hg))).symm
  have hlkp : lfLookup (bc.readOnlyFiles ++ [bc.activeFile]) bc.activeFile.id =
      some bc.activeFile :=
    lfLookup_append_last _ _ (fun g hg => Nat.ne_of_lt (sealed_lt_active bc h g hg))
  have hidi1 : IdInv (bc.put ts k v).1 := by
    have := IdInv_step bc h (Op.put ts k v)
    rwa [stepOp] at this
  rw [put_eq_rotate bc ts k v hsz, rotate_eq bc h]
  refine ⟨rfl, hmax, rfl, by simp [appendActive, newLogFile], hlkp, ?_⟩
  intro ops'
  have hstep := IdInv_sealed_run ops' _ (by rwa [put_eq_rotate bc ts k v hsz, rotate_eq bc h] at hidi1)
  exact hstep.2 bc.activeFile.id bc.activeFile hlkp

/-- C8 witness: with threshold zero the first put rotates, the fresh empty
segment with id 1 is sealed, and a later delete does not disturb it. -/
theorem c8_witness :
    IdInv (freshBitcask ⟨0, false⟩) ∧
    (freshBitcask ⟨0, false⟩).activeFile.size ≥ (freshBitcask ⟨0, false⟩).config.maxFileSize ∧
    ((freshBitcask ⟨0, false⟩).put 7 [1] [2]).2 = none ∧
    ((freshBitcask ⟨0, false⟩).put 7 [1] [2]).1.activeFile.id =
      (freshBitcask ⟨0, false⟩).activeFile.id + 1 ∧
    ((freshBitcask ⟨0, false⟩).put 7 [1] [2]).1.activeFile.fileData =
      encodeEntry (mkEntry 7 [1] [2]) ∧
    lfLookup ((freshBitcask ⟨0, false⟩).put 7 [1] [2]).1.readOnlyFiles 1 =
      some (freshBitcask ⟨0, false⟩).activeFile ∧
    lfLookup (run ((freshBitcask ⟨0, false⟩).put 7 [1] [2]).1 [Op.del 9 [1]]).readOnlyFiles 1 =
      some (freshBitcask ⟨0, false⟩).activeFile := by
  have hc := c8_rotation_boundary (freshBitcask ⟨0, false⟩) (IdInv_fresh ⟨0, false⟩) 7 [1] [2]
    (by decide)
  exact ⟨IdInv_fresh ⟨0, false⟩, by decide, hc.1, hc.2.2.1, hc.2.2.2.1, hc.2.2.2.2.1,
    hc.2.2.2.2.2 [Op.del 9 [1]]⟩

/-- C1 (claim theorem, exhibiting the divergence): a segment whose tail holds a
record cut short mid-field (here two stray bytes after one complete record, as
after a crash mid-write) does not make recovery stop at the last
fully-decodable record: decoding the tail yields the error string
"unexpected EOF", which `rebuildKeyDir` does not treat as end-of-log (it only
accepts "EOF"), so `Open` fails instead of succeeding. -/
theorem c1_truncated_record_fails_recovery :
    readEntry (encodeEntry ⟨0, 1, 1, [97], [98]⟩ ++ [0, 0]) 0 =
      .ok (⟨0, 1, 1, [97], [98]⟩, 14) ∧
    readEntry (encodeEntry ⟨0, 1, 1, [97], [98]⟩ ++ [0, 0]) 14 = .error "unexpected EOF" ∧
    openDisk ⟨1000, false⟩ [(1, encodeEntry ⟨0, 1, 1, [97], [98]⟩ ++ [0, 0])] =
      .error "unexpected EOF" := by
  decide
